import Mathlib

/-!
# Shallow embedding of the zebra (ZebraSign) core

This file embeds the data model and operations of the zebra repository:

* `src/zebra_crypto/src/ristretto.rs` — newtype wrappers around Ristretto
  points and canonical scalars;
* `src/zebra_crypto/src/lib.rs` — the SAG ring signature scheme,
  identity-bound keys, signed messages, and their ASCII codecs;
* `src/spartacus_storage/src/lib.rs` and
  `src/zebra_storage/src/dbfile_utils.rs` — the encrypted store.

Modelling conventions:

* Machine bytes are `Nat` with explicit `% 256` bounds where they matter;
  byte strings are `List Nat`, Rust `String`/`str` values are `List Char`.
* The Ristretto group is a cyclic group of prime order ℓ
  (ℓ = 2^252 + 27742317777372353535851937790883648493).  Fixing a generator
  G identifies it with `ZMod ℓ` via `n ↦ n·G`; under that identification
  `mul_base` is the identity, point addition is `+` and scalar
  multiplication is `*`.  The injective 32-byte compressed encoding of the
  external curve25519-dalek library is modelled by the injective map
  `leBytes 32 ∘ ZMod.val`.
* SHA3-512 (always consumed through `Scalar::from_hash`) and SHA3-256 are
  external library primitives; they are modelled by fixed executable
  stand-ins of the absorbed byte stream (`hashToScalar`, `sha3_256`); no
  theorem below relies on any property of the actual permutation.
* Randomness (`OsRng` samples) is passed in explicitly.
-/

set_option maxRecDepth 100000

namespace ZebraSpec

/-! ## Bytes -/

/-- `k`-byte little-endian encoding of a natural number
(used for the 32-byte scalar/point images and `u32` length fields). -/
def leBytes : Nat → Nat → List Nat
  | 0, _ => []
  | k + 1, n => n % 256 :: leBytes k (n / 256)

/-- Little-endian value of a byte string. -/
def fromLE : List Nat → Nat
  | [] => 0
  | b :: bs => b + 256 * fromLE bs

/-! ## Curve primitives (src/zebra_crypto/src/ristretto.rs) -/

/-- Order of the Ristretto group over Curve25519 (a prime ℓ);
scalars are canonical residues mod ℓ. -/
def gOrder : Nat := 2 ^ 252 + 27742317777372353535851937790883648493

instance : NeZero gOrder := ⟨by norm_num [gOrder]⟩

/-- Canonical Curve25519 scalar (`ristretto.rs`, `struct Scalar`). -/
abbrev Scalar := ZMod gOrder

/-- Ristretto group element (`ristretto.rs`, `struct RistrettoPoint`),
identified with `ZMod gOrder` by a fixed generator (see file header). -/
abbrev RistrettoPoint := ZMod gOrder

/-- `RistrettoPoint::compress`: the injective 32-byte encoding. -/
def RistrettoPoint.compress (p : RistrettoPoint) : List Nat := leBytes 32 p.val

/-- `RistrettoPoint::mul_base`: base-point multiplication (the identity under
the discrete-log identification of the group with `ZMod ℓ`). -/
def RistrettoPoint.mul_base (s : Scalar) : RistrettoPoint := s

/-! ## Ordering by compressed bytes

Rust compares `[u8; 32]` values lexicographically; `RistrettoPoint`'s
`Ord` instance (`ristretto.rs`) compares by compressed bytes. -/

/-- Lexicographic `≤` on byte strings (Rust's `Ord` on byte arrays). -/
def lexLeBytes : List Nat → List Nat → Bool
  | [], _ => true
  | _ :: _, [] => false
  | a :: as, b :: bs => if a < b then true else if a = b then lexLeBytes as bs else false

/-- The comparator used by `make_ring`'s `sort_by_key` after applying the
key extractor: `≤` on compressed keypoints. -/
def ringLe {T : Type} (key_extractor : T → RistrettoPoint) (a b : T) : Prop :=
  lexLeBytes (RistrettoPoint.compress (key_extractor a))
    (RistrettoPoint.compress (key_extractor b)) = true

instance {T : Type} (f : T → RistrettoPoint) : DecidableRel (ringLe f) := fun _ _ =>
  inferInstanceAs (Decidable (_ = true))

instance {T : Type} (f : T → RistrettoPoint) : IsTotal T (ringLe f) :=
  ⟨fun p q => by
    show lexLeBytes _ _ = true ∨ lexLeBytes _ _ = true
    generalize (RistrettoPoint.compress (f p)) = x
    generalize (RistrettoPoint.compress (f q)) = y
    induction x generalizing y with
    | nil => left; rfl
    | cons a as ih =>
      cases y with
      | nil => right; rfl
      | cons b bs =>
        rcases Nat.lt_trichotomy a b with h | h | h
        · left; simp [lexLeBytes, h]
        · subst h
          rcases ih bs with h' | h' <;> [left; right] <;> simp [lexLeBytes, h']
        · right; simp [lexLeBytes, h]⟩

instance {T : Type} (f : T → RistrettoPoint) : IsTrans T (ringLe f) :=
  ⟨fun p q r => by
    show lexLeBytes _ _ = true → lexLeBytes _ _ = true → lexLeBytes _ _ = true
    generalize (RistrettoPoint.compress (f p)) = x
    generalize (RistrettoPoint.compress (f q)) = y
    generalize (RistrettoPoint.compress (f r)) = z
    intro h1 h2
    induction x generalizing y z with
    | nil => rfl
    | cons a as ih =>
      cases y with
      | nil => simp [lexLeBytes] at h1
      | cons b bs =>
        cases z with
        | nil => simp [lexLeBytes] at h2
        | cons c cs =>
          simp only [lexLeBytes] at h1 h2 ⊢
          split_ifs at h1 h2 ⊢ with hab hab' hbc hbc' hac hac' <;>
            first
            | rfl
            | omega
            | exact ih _ _ h1 h2⟩

/-! ## Hash stand-ins (external `sha3` crate) -/

/-- Models `Scalar::from_hash` applied to a completed SHA3-512 state: a fixed
executable function of the absorbed byte stream.  The SHA-3 permutation is an
external library primitive; no theorem below uses any property of it. -/
def hashToScalar (bs : List Nat) : Scalar :=
  ((bs.foldl (fun a b => (a * 256 + b + 1) % gOrder) 1 : Nat) : ZMod gOrder)

/-- Models `Sha3_256::digest`: a fixed executable 32-byte digest of the input
byte stream (stand-in for the external library primitive). -/
def sha3_256 (bs : List Nat) : List Nat :=
  (List.range 32).map
    (fun i => bs.foldl (fun a b => (a * 257 + b + 1) % 4294967291) (i + 1) % 256)

/-! ## The SAG ring signature (src/zebra_crypto/src/lib.rs) -/

/-- `make_ring` (lib.rs:17): append `my_key` to `other_keys` and stably sort
by the members' compressed keypoints.  Rust's `sort_by_key` is a stable sort;
insertion sort with a non-strict total comparator realises the same (unique)
stable-sorted output. -/
def make_ring {T : Type} (my_key : T) (other_keys : List T)
    (key_extractor : T → RistrettoPoint) : List T :=
  List.insertionSort (ringLe key_extractor) (other_keys ++ [my_key])

/-- `hash_message_and_ring` (lib.rs:32): the byte stream absorbed by the
SHA3-512 state `H0` — the message followed by each ring member's compressed
keypoint. -/
def hash_message_and_ring (message : List Nat) (keys : List RistrettoPoint) : List Nat :=
  message ++ (keys.map RistrettoPoint.compress).flatten

/-- `Signature` (lib.rs:46). -/
structure Signature where
  challenge : Scalar
  ring_responses : List (RistrettoPoint × Scalar)
  deriving DecidableEq

namespace Signature

/-- `Signature::verify` (lib.rs:134): recompute the challenge chain along the
stored ring order and accept iff it closes on the stored challenge. -/
def verify (self : Signature) (message : List Nat) : Bool :=
  let initial_hash := hash_message_and_ring message (self.ring_responses.map Prod.fst)
  let reconstructed_challenge :=
    self.ring_responses.foldl
      (fun c kr =>
        hashToScalar (initial_hash ++
          RistrettoPoint.compress (RistrettoPoint.mul_base kr.2 + c * kr.1)))
      self.challenge
  decide (self.challenge = reconstructed_challenge)

/-- One iteration of the signing loop (lib.rs:107-116), acting on the state
`(cs, next_hash_update)`. -/
def signStep (initial_hash : List Nat) (ring : List RistrettoPoint)
    (responses : List Scalar) (my_key_index ring_size : Nat)
    (st : List Scalar × RistrettoPoint) (offset_from_my_key : Nat) :
    List Scalar × RistrettoPoint :=
  let index := (my_key_index + offset_from_my_key) % ring_size
  let ci := hashToScalar (initial_hash ++ RistrettoPoint.compress st.2)
  (st.1.set index ci,
    RistrettoPoint.mul_base (responses.getD index 0) + ci * (ring.getD index 0))

/-- `Signature::sign` (lib.rs:78).  The `OsRng` samples are passed in
explicitly: `rnd i` is the `i`-th fake response `r_i`, `a` is the nonce.
`binary_search_by_key` over the sorted ring (which the source `expect`s to
succeed) is modelled by the index of the first matching compressed key. -/
def sign (message : List Nat) (my_private_value : Scalar)
    (other_public_keypoints : List RistrettoPoint)
    (rnd : Nat → Scalar) (a : Scalar) : Signature :=
  let my_public_keypoint := RistrettoPoint.mul_base my_private_value
  let ring_size := other_public_keypoints.length + 1
  let ring := make_ring my_public_keypoint other_public_keypoints id
  let my_key_index :=
    ring.findIdx (fun k => decide (k.compress = my_public_keypoint.compress))
  let responses := (List.range ring_size).map rnd
  let initial_hash := hash_message_and_ring message ring
  let looped :=
    (List.range' 1 ring_size).foldl
      (signStep initial_hash ring responses my_key_index ring_size)
      (List.replicate ring_size (0 : Scalar), RistrettoPoint.mul_base a)
  let cs := looped.1
  let responses2 :=
    responses.set my_key_index (a - (cs.getD my_key_index 0) * my_private_value)
  { challenge := cs.getD 0 0, ring_responses := ring.zip responses2 }

end Signature

/-! ## The challenge chain computed by `Signature::sign` -/

/-- The sequence of `next_hash_update` points of the signing loop
(lib.rs:105-116): `chainU 0` is `[a]G`, and `chainU (t+1)` is
`[r_i]G + [c_i]K_i` for the index `i` visited at offset `t+1`. -/
def chainU (pfx : List Nat) (ring : List RistrettoPoint) (resp : List Scalar)
    (pi n : Nat) (a : Scalar) : Nat → RistrettoPoint
  | 0 => RistrettoPoint.mul_base a
  | t + 1 =>
      RistrettoPoint.mul_base (resp.getD ((pi + (t + 1)) % n) 0) +
        hashToScalar (pfx ++ (chainU pfx ring resp pi n a t).compress) *
          ring.getD ((pi + (t + 1)) % n) 0

/-- The challenge written at offset `t+1` of the signing loop. -/
def chainC (pfx : List Nat) (ring : List RistrettoPoint) (resp : List Scalar)
    (pi n : Nat) (a : Scalar) (t : Nat) : Scalar :=
  hashToScalar (pfx ++ (chainU pfx ring resp pi n a t).compress)

/-! ## UTF-8 (Rust `str::as_bytes` / `String::from_utf8`) -/

/-- UTF-8 encoding of one Unicode scalar value. -/
def utf8EncodeChar (c : Char) : List Nat :=
  let n := c.toNat
  if n < 0x80 then [n]
  else if n < 0x800 then [0xC0 + n / 64, 0x80 + n % 64]
  else if n < 0x10000 then [0xE0 + n / 4096, 0x80 + n / 64 % 64, 0x80 + n % 64]
  else [0xF0 + n / 262144, 0x80 + n / 4096 % 64, 0x80 + n / 64 % 64, 0x80 + n % 64]

/-- `str::as_bytes`: UTF-8 encoding of a string. -/
def utf8Encode (s : List Char) : List Nat := (s.map utf8EncodeChar).flatten

/-- Read one UTF-8 continuation byte (`0x80..0xBF`). -/
def utf8Cont : List Nat → Option (Nat × List Nat)
  | [] => none
  | b :: rest => if 0x80 ≤ b ∧ b < 0xC0 then some (b, rest) else none

/-- Decode one UTF-8 sequence starting at lead byte `b0`, with `dec` the
decoder of the remaining bytes. -/
def utf8Step (dec : List Nat → Option (List Char)) (b0 : Nat) (rest : List Nat) :
    Option (List Char) :=
  if b0 < 0x80 then (dec rest).map (fun cs => Char.ofNat b0 :: cs)
  else if b0 < 0xC2 then none
  else if b0 < 0xE0 then
    (utf8Cont rest).bind (fun br =>
      (dec br.2).map (fun cs => Char.ofNat ((b0 - 0xC0) * 64 + (br.1 - 0x80)) :: cs))
  else if b0 < 0xF0 then
    (utf8Cont rest).bind (fun br1 => (utf8Cont br1.2).bind (fun br2 =>
      (if 0x800 ≤ (b0 - 0xE0) * 4096 + (br1.1 - 0x80) * 64 + (br2.1 - 0x80)
          ∧ ((b0 - 0xE0) * 4096 + (br1.1 - 0x80) * 64 + (br2.1 - 0x80) < 0xD800
             ∨ 0xDFFF < (b0 - 0xE0) * 4096 + (br1.1 - 0x80) * 64 + (br2.1 - 0x80)) then
        (dec br2.2).map
          (fun cs => Char.ofNat
            ((b0 - 0xE0) * 4096 + (br1.1 - 0x80) * 64 + (br2.1 - 0x80)) :: cs)
      else none)))
  else if b0 < 0xF5 then
    (utf8Cont rest).bind (fun br1 => (utf8Cont br1.2).bind (fun br2 =>
      (utf8Cont br2.2).bind (fun br3 =>
        (if 0x10000 ≤ (b0 - 0xF0) * 262144 + (br1.1 - 0x80) * 4096 +
              (br2.1 - 0x80) * 64 + (br3.1 - 0x80)
            ∧ (b0 - 0xF0) * 262144 + (br1.1 - 0x80) * 4096 +
              (br2.1 - 0x80) * 64 + (br3.1 - 0x80) < 0x110000 then
          (dec br3.2).map
            (fun cs => Char.ofNat
              ((b0 - 0xF0) * 262144 + (br1.1 - 0x80) * 4096 +
                (br2.1 - 0x80) * 64 + (br3.1 - 0x80)) :: cs)
        else none))))
  else none

/-- Fuelled worker for `utf8Decode`; the fuel (an upper bound on the number
of decoded characters) only makes the recursion structural. -/
def utf8DecodeAux : Nat → List Nat → Option (List Char)
  | _, [] => some []
  | 0, _ :: _ => none
  | fuel + 1, b0 :: rest => utf8Step (utf8DecodeAux fuel) b0 rest

/-- `String::from_utf8`: strict UTF-8 decoding (rejects bad leads, bad
continuations, overlong forms, surrogates and out-of-range values). -/
def utf8Decode (l : List Nat) : Option (List Char) := utf8DecodeAux l.length l

/-- `char::is_control` (Unicode `Cc`: U+0000–U+001F and U+007F–U+009F). -/
def isControlChar (c : Char) : Bool := c.toNat ≤ 0x1F || (0x7F ≤ c.toNat && c.toNat ≤ 0x9F)

/-- A byte is rejected by `BoringAscii::from_bytes` iff `b < 33 || b > 126`. -/
def boringByte (b : Nat) : Prop := 33 ≤ b ∧ b ≤ 126

instance (b : Nat) : Decidable (boringByte b) := inferInstanceAs (Decidable (_ ∧ _))

/-- `BoringAscii` (boringascii lib.rs): a byte string every byte of which is
printable non-space ASCII.  The constructor validates, so the invariant is
part of the type; the characters are the bytes (ASCII ⊂ UTF-8). -/
structure BoringAscii where
  chars : List Char
  ok : ∀ c ∈ chars, boringByte c.toNat

instance : DecidableEq BoringAscii := fun a b =>
  if h : a.chars = b.chars then
    isTrue (by cases a; cases b; cases h; rfl)
  else isFalse (by intro hab; cases hab; exact h rfl)

/-- `BoringAscii::as_bytes` (the stored `Vec<u8>`). -/
def BoringAscii.as_bytes (s : BoringAscii) : List Nat := s.chars.map Char.toNat

/-- `BoringAscii::from_bytes`: validate the byte range. -/
def BoringAscii.from_bytes (bytes : List Nat) : Option BoringAscii :=
  if h : ∀ b ∈ bytes, boringByte b then
    some ⟨bytes.map Char.ofNat, by
      intro c hc
      simp only [List.mem_map] at hc
      obtain ⟨b, hb, rfl⟩ := hc
      have := h b hb
      have hv : b.isValidChar := Or.inl (by
        rcases this with ⟨_, h2⟩
        omega)
      rw [show (Char.ofNat b).toNat = b from by rw [Char.ofNat, dif_pos hv]; rfl]
      exact this⟩
  else none

/-- `BoringAscii::from_str` / `TryFrom<&str>`: validate each byte of the
UTF-8 encoding (a multi-byte character always contains a byte ≥ 0x80 > 126,
so accepted strings are exactly those whose characters all lie in 33..126). -/
def BoringAscii.from_str (s : List Char) : Option BoringAscii :=
  if h : ∀ c ∈ s, boringByte c.toNat then some ⟨s, h⟩ else none

/-! ## Identity (zebra_crypto lib.rs:166) -/

/-- `Identity` (lib.rs:166): a control-free name and a `BoringAscii` email.
Both constructors (`Identity::new` and the manual `BorshDeserialize`)
validate, so the invariants are part of the type. -/
structure Identity where
  name : List Char
  email : BoringAscii
  name_ok : ∀ c ∈ name, isControlChar c = false

instance : DecidableEq Identity := fun a b =>
  if h1 : a.name = b.name then
    if h2 : a.email = b.email then
      isTrue (by cases a; cases b; cases h1; cases h2; rfl)
    else isFalse (by intro hab; cases hab; exact h2 rfl)
  else isFalse (by intro hab; cases hab; exact h1 rfl)

/-- `Identity::new` (lib.rs:172). -/
def Identity.new (name : List Char) (email : List Char) : Option Identity :=
  if h : name.any isControlChar = true then none
  else (BoringAscii.from_str email).map
    (fun e => ⟨name, e, by
      intro c hc
      rcases hbc : isControlChar c with _ | _
      · rfl
      · exact absurd (List.any_eq_true.2 ⟨c, hc, hbc⟩) h⟩)

/-- The fixed warning banner of `Identity::bytes_for_attestation`. -/
def attestationBanner : List Char :=
  ("!!!DO NOT SIGN THE FOLLOWING MESSAGE. DOING SO IS A SECURITY RISK."
    ++ " SOMEONE IS PROBABLY TRYING TO TRICK YOU!!!").toList

/-- `Identity::bytes_for_attestation` (lib.rs:192): banner ‖ name bytes ‖
0xFF ‖ email bytes ‖ compressed keypoint. -/
def Identity.bytes_for_attestation (self : Identity) (keypoint : RistrettoPoint) : List Nat :=
  (attestationBanner.map Char.toNat) ++ utf8Encode self.name ++ [0xff] ++
    self.email.as_bytes ++ keypoint.compress

/-! ## Version tag (lib.rs:229) -/

/-- `ZebraVersion` (lib.rs:229). -/
inductive ZebraVersion
  | ZebraOneBeta
  deriving DecidableEq

/-- `ZEBRA_ONE_BETA` (lib.rs:233). -/
def ZEBRA_ONE_BETA : List Char := "ZebraSign 1.0 Beta".toList

/-- `impl From<&ZebraVersion> for String` / `ToString` (lib.rs:235). -/
def ZebraVersion.toChars : ZebraVersion → List Char
  | ZebraVersion.ZebraOneBeta => ZEBRA_ONE_BETA

/-! ## PublicKey and PrivateKey (lib.rs:267, lib.rs:426) -/

/-- `PublicKey` (lib.rs:267). -/
structure PublicKey where
  holder : Identity
  version : ZebraVersion
  keypoint : RistrettoPoint
  holder_attestation : Signature
  deriving DecidableEq

/-- `PublicKey::validate_attestation` (lib.rs:305): the attestation must be a
1-entry ring signature whose sole keypoint is this key's keypoint, verifying
against the identity's attestation image. -/
def PublicKey.validate_attestation (self : PublicKey) : Bool :=
  if self.holder_attestation.ring_responses.length = 1 then
    if (self.holder_attestation.ring_responses.getD 0 (0, 0)).1 = self.keypoint then
      self.holder_attestation.verify (self.holder.bytes_for_attestation self.keypoint)
    else false
  else false

/-- `PrivateKey` (lib.rs:426). -/
structure PrivateKey where
  holder : Identity
  key : Scalar
  holder_attestation : Signature
  deriving DecidableEq

/-- `PrivateKey::new` (lib.rs:438); the scalar `key` and the attestation's
`OsRng` samples (`rnd`, `a`) are passed in explicitly. -/
def PrivateKey.new (holder : Identity) (key : Scalar) (rnd : Nat → Scalar) (a : Scalar) :
    PrivateKey :=
  { holder_attestation :=
      Signature.sign (holder.bytes_for_attestation (RistrettoPoint.mul_base key)) key [] rnd a,
    holder := holder,
    key := key }

/-- `PrivateKey::public` (lib.rs:451). -/
def PrivateKey.public (self : PrivateKey) : PublicKey :=
  { holder := self.holder,
    version := ZebraVersion.ZebraOneBeta,
    keypoint := RistrettoPoint.mul_base self.key,
    holder_attestation := self.holder_attestation }

/-! ## SignedMessage (lib.rs:464) -/

/-- `SignedMessage` (lib.rs:464). -/
structure SignedMessage where
  message : List Char
  challenge : Scalar
  ring : List (PublicKey × Scalar)
  deriving DecidableEq

/-- `SignedMessage::sign` (lib.rs:471): filter out one's own public key,
sign the message bytes over the keypoints, and zip the sorted public keys
with the responses. -/
def SignedMessage.sign (message : List Char) (my_key : PrivateKey)
    (other_keys : List PublicKey) (rnd : Nat → Scalar) (a : Scalar) : SignedMessage :=
  let my_public_key := my_key.public
  let other_keys2 := other_keys.filter (fun k => decide (¬ k = my_public_key))
  let sig := Signature.sign (utf8Encode message) my_key.key
    (other_keys2.map (fun k => k.keypoint)) rnd a
  let ring := make_ring my_public_key other_keys2 (fun k => k.keypoint)
  { message := message,
    challenge := sig.challenge,
    ring := (sig.ring_responses.zip ring).map (fun x => (x.2, x.1.2)) }

/-- `SignedMessage::signature` (lib.rs:517). -/
def SignedMessage.signature (self : SignedMessage) : Signature :=
  { challenge := self.challenge,
    ring_responses := self.ring.map (fun ks => (ks.1.keypoint, ks.2)) }

/-- `SignedMessage::verify` (lib.rs:505): all ring attestations must
validate, and the underlying SAG signature must verify. -/
def SignedMessage.verify (self : SignedMessage) : Bool :=
  self.ring.all (fun ks => ks.1.validate_attestation) &&
    self.signature.verify (utf8Encode self.message)

/-! ## Hex (external `hex` crate) -/

/-- The hex digit characters used by `hex::encode_upper`. -/
def hexDigits : List Char := "0123456789ABCDEF".toList

def hexDigitChar (n : Nat) : Char := hexDigits.getD n '0'

/-- `hex::encode_upper`: two uppercase hex digits per byte. -/
def hexEncodeUpper (bs : List Nat) : List Char :=
  (bs.map (fun b => [hexDigitChar (b / 16), hexDigitChar (b % 16)])).flatten

/-- Value of a hex digit (`hex::decode` accepts both cases). -/
def hexDigitVal (c : Char) : Option Nat :=
  if '0' ≤ c ∧ c ≤ '9' then some (c.toNat - 48)
  else if 'A' ≤ c ∧ c ≤ 'F' then some (c.toNat - 55)
  else if 'a' ≤ c ∧ c ≤ 'f' then some (c.toNat - 87)
  else none

/-- `hex::decode` (fails on odd length or a non-hex character). -/
def hexDecode : List Char → Option (List Nat)
  | [] => some []
  | c1 :: c2 :: rest =>
    (hexDigitVal c1).bind (fun h => (hexDigitVal c2).bind (fun l =>
      (hexDecode rest).map (fun bs => (h * 16 + l) :: bs)))
  | [_] => none

/-- The characters the public-key regex accepts in the two hex fields. -/
def isHexUpperChar (c : Char) : Bool :=
  decide (('0' ≤ c ∧ c ≤ '9') ∨ ('A' ≤ c ∧ c ≤ 'F'))

/-! ## Z85 (external `z85` crate)

The crate encodes 4-byte chunks as 5 characters of the Z85 alphabet.  Its
padding of a non-multiple-of-4 tail is a pinned implementation detail of the
external library (the source comments on this, lib.rs:580-585); it is
modelled here as: pad the tail with zero bytes, encode, and append one
alphabet character recording the number of padding bytes. -/

def z85Alphabet : List Char :=
  ("0123456789abcdefghijklmnopqrstuvwxyzABCDEFGHIJKLMNOPQRSTUVWXYZ"
    ++ ".-:+=^!/*?&<>()[]\x7b\x7d@%$#").toList

def z85Char (n : Nat) : Char := z85Alphabet.getD n '0'

/-- Encode one 32-bit group as 5 base-85 digits, most significant first. -/
def z85EncodeChunk (v : Nat) : List Char :=
  [z85Char (v / 52200625), z85Char (v / 614125 % 85), z85Char (v / 7225 % 85),
    z85Char (v / 85 % 85), z85Char (v % 85)]

def z85EncodeGroups : List Nat → List Char
  | b1 :: b2 :: b3 :: b4 :: rest =>
    z85EncodeChunk (((b1 * 256 + b2) * 256 + b3) * 256 + b4) ++ z85EncodeGroups rest
  | _ => []

def z85Encode (bs : List Nat) : List Char :=
  if bs.length % 4 = 0 then z85EncodeGroups bs
  else
    z85EncodeGroups (bs ++ List.replicate (4 - bs.length % 4) 0)
      ++ [z85Char (4 - bs.length % 4)]

def z85CharVal (c : Char) : Option Nat :=
  let i := z85Alphabet.findIdx (fun d => d == c)
  if i < 85 then some i else none

def z85DecodeChunk (c1 c2 c3 c4 c5 : Char) : Option Nat :=
  (z85CharVal c1).bind (fun i1 => (z85CharVal c2).bind (fun i2 =>
    (z85CharVal c3).bind (fun i3 => (z85CharVal c4).bind (fun i4 =>
      (z85CharVal c5).bind (fun i5 =>
        let v := (((i1 * 85 + i2) * 85 + i3) * 85 + i4) * 85 + i5
        if v < 4294967296 then some v else none)))))

def z85DecodeGroups : List Char → Option (List Nat)
  | [] => some []
  | c1 :: c2 :: c3 :: c4 :: c5 :: rest =>
    (z85DecodeChunk c1 c2 c3 c4 c5).bind (fun v =>
      (z85DecodeGroups rest).map
        (fun bs => v / 16777216 :: v / 65536 % 256 :: v / 256 % 256 :: v % 256 :: bs))
  | _ => none

def z85Decode (s : List Char) : Option (List Nat) :=
  if s.length % 5 = 0 then z85DecodeGroups s
  else if s.length % 5 = 1 ∧ 6 ≤ s.length then
    (z85CharVal (s.getLastD '0')).bind (fun p =>
      if 1 ≤ p ∧ p ≤ 3 then
        (z85DecodeGroups s.dropLast).bind (fun bs =>
          if p ≤ bs.length then some (bs.take (bs.length - p)) else none)
      else none)
  else none

/-! ## Borsh canonical serialization (external `borsh` crate, derived impls) -/

/-- Borsh `u32` length field: 4 bytes little-endian. -/
def serU32 (n : Nat) : List Nat := leBytes 4 n

/-- Take exactly `k` bytes from the front. -/
def deserBytesN (k : Nat) (bs : List Nat) : Option (List Nat × List Nat) :=
  if k ≤ bs.length then some (bs.take k, bs.drop k) else none

/-- `Scalar`'s Borsh image: the canonical 32-byte little-endian encoding. -/
def serScalar (s : Scalar) : List Nat := leBytes 32 s.val

/-- `Scalar::deserialize_reader` (ristretto.rs:139): 32 bytes, rejected when
not canonical (≥ ℓ). -/
def deserScalar (bs : List Nat) : Option (Scalar × List Nat) :=
  (deserBytesN 32 bs).bind (fun tr =>
    if fromLE tr.1 < gOrder then some (((fromLE tr.1 : Nat) : Scalar), tr.2) else none)

/-- `RistrettoPoint`'s Borsh image: the compressed 32 bytes. -/
def serPoint (p : RistrettoPoint) : List Nat := p.compress

/-- `CompressedRistretto::from_slice(...).decompress()`: exactly 32 bytes,
failing on a non-canonical encoding. -/
def decompressBytes (bs : List Nat) : Option RistrettoPoint :=
  if bs.length = 32 ∧ fromLE bs < gOrder then
    some ((fromLE bs : Nat) : RistrettoPoint)
  else none

/-- `RistrettoPoint::deserialize_reader` (ristretto.rs:64). -/
def deserPoint (bs : List Nat) : Option (RistrettoPoint × List Nat) :=
  (deserBytesN 32 bs).bind (fun tr =>
    (decompressBytes tr.1).map (fun p => (p, tr.2)))

/-- Borsh `Vec<T>`: `u32` little-endian length, then the elements. -/
def serVec {α : Type} (serA : α → List Nat) (xs : List α) : List Nat :=
  serU32 xs.length ++ (xs.map serA).flatten

def deserList {α : Type} (deserA : List Nat → Option (α × List Nat)) :
    Nat → List Nat → Option (List α × List Nat)
  | 0, bs => some ([], bs)
  | k + 1, bs =>
    (deserA bs).bind (fun ar =>
      (deserList deserA k ar.2).map (fun lr => (ar.1 :: lr.1, lr.2)))

def deserVec {α : Type} (deserA : List Nat → Option (α × List Nat)) (bs : List Nat) :
    Option (List α × List Nat) :=
  (deserBytesN 4 bs).bind (fun lr => deserList deserA (fromLE lr.1) lr.2)

/-- Borsh `String`: `u32` byte length, then the UTF-8 bytes. -/
def serString (s : List Char) : List Nat := serU32 (utf8Encode s).length ++ utf8Encode s

def deserString (bs : List Nat) : Option (List Char × List Nat) :=
  (deserBytesN 4 bs).bind (fun lr =>
    (deserBytesN (fromLE lr.1) lr.2).bind (fun sr =>
      (utf8Decode sr.1).map (fun s => (s, sr.2))))

/-- `BoringAscii`'s Borsh image: its bytes as a `Vec<u8>`. -/
def serBoring (e : BoringAscii) : List Nat := serU32 e.as_bytes.length ++ e.as_bytes

/-- `BoringAscii::deserialize_reader` (boringascii lib.rs:66): re-validates
the byte range. -/
def deserBoring (bs : List Nat) : Option (BoringAscii × List Nat) :=
  (deserBytesN 4 bs).bind (fun lr =>
    (deserBytesN (fromLE lr.1) lr.2).bind (fun sr =>
      (BoringAscii.from_bytes sr.1).map (fun e => (e, sr.2))))

/-- `Identity`'s derived Borsh image: name, then email. -/
def serIdentity (id : Identity) : List Nat := serString id.name ++ serBoring id.email

/-- `Identity::deserialize_reader` (zebra_crypto lib.rs:211): deserialize the
fields and re-validate through `Identity::new`. -/
def deserIdentity (bs : List Nat) : Option (Identity × List Nat) :=
  (deserString bs).bind (fun nr =>
    (deserBoring nr.2).bind (fun er =>
      (Identity.new nr.1 er.1.chars).map (fun i => (i, er.2))))

/-- `ZebraVersion`'s Borsh image: the `u8` discriminant. -/
def serVersion : ZebraVersion → List Nat
  | ZebraVersion.ZebraOneBeta => [0]

def deserVersion : List Nat → Option (ZebraVersion × List Nat)
  | 0 :: rest => some (ZebraVersion.ZebraOneBeta, rest)
  | _ => none

/-- `Signature`'s derived Borsh image: challenge, then the response vector. -/
def serSignature (sig : Signature) : List Nat :=
  serScalar sig.challenge ++
    serVec (fun pr => serPoint pr.1 ++ serScalar pr.2) sig.ring_responses

def deserPointScalar (bs : List Nat) : Option ((RistrettoPoint × Scalar) × List Nat) :=
  (deserPoint bs).bind (fun p => (deserScalar p.2).map (fun s => ((p.1, s.1), s.2)))

def deserSignature (bs : List Nat) : Option (Signature × List Nat) :=
  (deserScalar bs).bind (fun c =>
    (deserVec deserPointScalar c.2).map (fun v => (Signature.mk c.1 v.1, v.2)))

/-- `PublicKey`'s derived Borsh image: holder, version, keypoint,
attestation — in declaration order (lib.rs:267). -/
def serPublicKey (k : PublicKey) : List Nat :=
  serIdentity k.holder ++ serVersion k.version ++ serPoint k.keypoint ++
    serSignature k.holder_attestation

def deserPublicKey (bs : List Nat) : Option (PublicKey × List Nat) :=
  (deserIdentity bs).bind (fun hr =>
    (deserVersion hr.2).bind (fun vr =>
      (deserPoint vr.2).bind (fun pr =>
        (deserSignature pr.2).map (fun sr =>
          (PublicKey.mk hr.1 vr.1 pr.1 sr.1, sr.2)))))

/-- Borsh image of one `(PublicKey, Scalar)` ring entry. -/
def serPkScalar (ks : PublicKey × Scalar) : List Nat :=
  serPublicKey ks.1 ++ serScalar ks.2

def deserPkScalar (bs : List Nat) : Option ((PublicKey × Scalar) × List Nat) :=
  (deserPublicKey bs).bind (fun kr =>
    (deserScalar kr.2).map (fun sr => ((kr.1, sr.1), sr.2)))

/-- Borsh image of the `(challenge, ring)` pair placed on the Z85 line of a
signed message (lib.rs:621). -/
def serChallengeRing (c : Scalar) (ring : List (PublicKey × Scalar)) : List Nat :=
  serScalar c ++ serVec serPkScalar ring

def deserChallengeRing (bs : List Nat) :
    Option ((Scalar × List (PublicKey × Scalar)) × List Nat) :=
  (deserScalar bs).bind (fun c =>
    (deserVec deserPkScalar c.2).map (fun v => ((c.1, v.1), v.2)))

/-! ## Fingerprint (lib.rs:319) -/

/-- `PublicKey::fingerprint`: Z85 of the SHA3-256 digest of the canonical
serialization, with a space inserted after positions 30, 20, 10. -/
def PublicKey.fingerprint (self : PublicKey) : List Char :=
  let res := z85Encode (sha3_256 (serPublicKey self))
  ((res.insertIdx 30 ' ').insertIdx 20 ' ').insertIdx 10 ' '

/-! ## Public-key ASCII codec (lib.rs:356, lib.rs:373) -/

/-- `impl From<PublicKey> for String` (lib.rs:356). -/
def PublicKey.toChars (k : PublicKey) : List Char :=
  '[' :: (k.holder.name ++ [' ', '<'] ++ k.holder.email.chars ++ ['>', ' ', '<'] ++
    k.version.toChars ++ ['>', ' '] ++ hexEncodeUpper k.keypoint.compress ++ [' '] ++
    hexEncodeUpper (serSignature k.holder_attestation) ++ [']'])

/-- The unique split of `name <email` demanded by the anchored regex
(lib.rs:379): `email` is a maximal run of `[!-~]` characters (no spaces), so
exactly one position can satisfy `name` ++ `" <"` ++ `email` with `email`
all-`[!-~]` — the maximal boring suffix must start with `<` and be preceded
by a space. -/
def splitNameEmail (front : List Char) : Option (List Char × List Char) :=
  let sfx := (front.reverse.takeWhile (fun c => decide (boringByte c.toNat))).reverse
  match sfx with
  | '<' :: email =>
    if front.length ≥ sfx.length + 1 ∧ front.getD (front.length - sfx.length - 1) '!' = ' '
    then some (front.take (front.length - sfx.length - 1), email)
    else none
  | _ => none

/-- The fixed 23 characters between the email and the keypoint hex:
`"> <ZebraSign 1.0 Beta> "`. -/
def pkFixedMid : List Char := ['>', ' ', '<'] ++ ZEBRA_ONE_BETA ++ ['>', ' ']

/-- `impl FromStr for PublicKey` (lib.rs:373): the anchored regex
`^\[([^\n]*) <([!-~]*)> <ZebraSign 1\.0 Beta> ([0-9A-F]{64}) ([0-9A-F]{200})\]$`,
implemented right-to-left (the whole suffix after the email has fixed length
289), then hex/borsh decoding and `validate_attestation`. -/
def PublicKey.fromChars : List Char → Option PublicKey
  | '[' :: t =>
    if t.length < 291 then none
    else
      let front := t.take (t.length - 289)
      let back := t.drop (t.length - 289)
      let h64 := (back.drop 23).take 64
      let h200 := (back.drop 88).take 200
      if back.take 23 = pkFixedMid ∧ h64.all isHexUpperChar ∧
          back.getD 87 '!' = ' ' ∧ h200.all isHexUpperChar ∧ back.getD 288 '!' = ']' then
        (splitNameEmail front).bind (fun ne =>
          if ne.1.any (fun c => decide (c = '\n')) then none
          else
            (Identity.new ne.1 ne.2).bind (fun id =>
              (hexDecode h64).bind (fun kpBytes =>
                (decompressBytes kpBytes).bind (fun kp =>
                  (hexDecode h200).bind (fun attBytes =>
                    (deserSignature attBytes).bind (fun att =>
                      let res := PublicKey.mk id ZebraVersion.ZebraOneBeta kp att.1
                      if res.validate_attestation then some res else none))))))
      else none
  | _ => none

/-! ## Signed-message ASCII codec (lib.rs:587-731) -/

def SIGNED_MESSAGE_FIRST_LINE : List Char :=
  "The following message has been signed using ZebraSign 1.0 Beta:".toList

def SIGNED_MESSAGE_SECOND_LINE : List Char := "\"\"\"".toList

def SIGNED_MESSAGE_INFIX_FIRST_LINE : List Char := "\"\"\"".toList

def SIGNED_MESSAGE_INFIX_SECOND_LINE : List Char := []

def SIGNED_MESSAGE_INFIX_THIRD_LINE : List Char :=
  ("It was signed by someone with a private key corresponding to one of these"
    ++ " fingerprints:").toList

def SIGNED_MESSAGE_INFIX_FOURTH_LINE : List Char := []

def SIGNED_MESSAGE_SUFFIX_FIRST_LINE : List Char := []

def SIGNED_MESSAGE_SUFFIX_SECOND_LINE : List Char :=
  ("To verify this signature, paste this entire message into the ZebraSign app"
    ++ " (starting with \"The following message\" and ending with this line).").toList

/-- One identity line: `"{name} <{email}> {fingerprint}"` (lib.rs:613,703). -/
def identityLine (k : PublicKey) : List Char :=
  k.holder.name ++ [' ', '<'] ++ k.holder.email.chars ++ ['>', ' '] ++ k.fingerprint

/-- `Vec::join("\n")`. -/
def joinNl : List (List Char) → List Char
  | [] => []
  | [x] => x
  | x :: y :: rest => x ++ '\n' :: joinNl (y :: rest)

/-- Prepend a character to the first piece of a split. -/
def consHead (c : Char) : List (List Char) → List (List Char)
  | [] => [[c]]
  | h :: t => (c :: h) :: t

/-- `str::split('\n')`. -/
def splitNl : List Char → List (List Char)
  | [] => [[]]
  | c :: rest => if c = '\n' then [] :: splitNl rest else consHead c (splitNl rest)

/-- `char::is_whitespace` (Unicode `White_Space`). -/
def rustWhitespace (c : Char) : Bool :=
  decide (c.toNat ∈ [0x09, 0x0A, 0x0B, 0x0C, 0x0D, 0x20, 0x85, 0xA0, 0x1680,
    0x2000, 0x2001, 0x2002, 0x2003, 0x2004, 0x2005, 0x2006, 0x2007, 0x2008,
    0x2009, 0x200A, 0x2028, 0x2029, 0x202F, 0x205F, 0x3000])

/-- `str::trim`: strip leading and trailing whitespace. -/
def trimChars (s : List Char) : List Char :=
  ((s.dropWhile rustWhitespace).reverse.dropWhile rustWhitespace).reverse

/-- `impl From<&SignedMessage> for String` (lib.rs:597). -/
def SignedMessage.toChars (m : SignedMessage) : List Char :=
  joinNl ([SIGNED_MESSAGE_FIRST_LINE, SIGNED_MESSAGE_SECOND_LINE, m.message,
    SIGNED_MESSAGE_INFIX_FIRST_LINE, SIGNED_MESSAGE_INFIX_SECOND_LINE,
    SIGNED_MESSAGE_INFIX_THIRD_LINE, SIGNED_MESSAGE_INFIX_FOURTH_LINE] ++
    m.ring.map (fun ks => identityLine ks.1) ++
    [[], z85Encode (serChallengeRing m.challenge m.ring), [],
      SIGNED_MESSAGE_SUFFIX_SECOND_LINE])

/-- The per-entry check of lib.rs:702-713: walking the deserialized ring in
reverse, each identity line must equal the formatted identity+fingerprint. -/
def ringLinesMatch (lines : List (List Char)) (ring : List (PublicKey × Scalar)) : Bool :=
  ((List.range ring.length).zip ring.reverse).all
    (fun p => decide (lines.getD (lines.length - 5 - p.1) [] = identityLine p.2.1))

/-- `impl FromStr for SignedMessage` (lib.rs:639).  Rust's out-of-bounds
indexing and slicing panics (reachable only on adversarial inputs) are
totalised: `getD` with default `[]`, truncated `Nat` subtraction, and
`take`/`drop` clamping. -/
def SignedMessage.fromChars (s : List Char) : Option SignedMessage :=
  let lines := splitNl (trimChars s)
  if lines.length < 12 then none
  else if ¬ (lines.getD 0 [] = SIGNED_MESSAGE_FIRST_LINE ∧
      lines.getD 1 [] = SIGNED_MESSAGE_SECOND_LINE) then none
  else if ¬ (lines.getD (lines.length - 1) [] = SIGNED_MESSAGE_SUFFIX_SECOND_LINE ∧
      lines.getD (lines.length - 2) [] = SIGNED_MESSAGE_SUFFIX_FIRST_LINE ∧
      lines.getD (lines.length - 4) [] = []) then none
  else
    (z85Decode (lines.getD (lines.length - 3) [])).bind (fun signature_bytes =>
      (deserChallengeRing signature_bytes).bind (fun cr =>
        if ¬ ringLinesMatch lines cr.1.2 then none
        else if ¬ (lines.getD (lines.length - 5 - cr.1.2.length) []
              = SIGNED_MESSAGE_INFIX_FOURTH_LINE ∧
            lines.getD (lines.length - 5 - cr.1.2.length - 1) []
              = SIGNED_MESSAGE_INFIX_THIRD_LINE ∧
            lines.getD (lines.length - 5 - cr.1.2.length - 2) []
              = SIGNED_MESSAGE_INFIX_SECOND_LINE ∧
            lines.getD (lines.length - 5 - cr.1.2.length - 3) []
              = SIGNED_MESSAGE_INFIX_FIRST_LINE) then none
        else some (SignedMessage.mk
          (joinNl ((lines.take (lines.length - 5 - cr.1.2.length - 3)).drop 2))
          cr.1.1 cr.1.2)))

/-! ## Lock-file path (src/zebra_storage/src/dbfile_utils.rs:34,
src/spartacus_storage/src/lib.rs:375)

Paths are modelled as character strings.  `Path::with_extension(ext)`
replaces the extension of the final path component: the extension is the
part after the last `.` of the file name, provided that `.` is not its
first character (a leading dot marks a hidden file, not an extension). -/

/-- Split a path after the last `/`: `(directory prefix, file name)`. -/
def splitFileName (p : List Char) : List Char × List Char :=
  let revName := p.reverse.takeWhile (fun c => decide (¬ c = '/'))
  (p.take (p.length - revName.length), revName.reverse)

/-- `Path::file_stem` of a file name: strip the part from the last `.` on,
unless the only `.` is the leading character. -/
def fileStem (fname : List Char) : List Char :=
  let revExt := fname.reverse.takeWhile (fun c => decide (¬ c = '.'))
  if revExt.length + 1 ≤ fname.length ∧ ¬ revExt.length + 1 = fname.length then
    fname.take (fname.length - revExt.length - 1)
  else if revExt.length + 1 = fname.length then fname
  else fname

/-- `Path::with_extension(ext)` for a non-empty `ext`. -/
def withExtension (p : List Char) (ext : List Char) : List Char :=
  let dn := splitFileName p
  dn.1 ++ fileStem dn.2 ++ '.' :: ext

/-- `lockfile_path` (dbfile_utils.rs:34 and spartacus_storage lib.rs:375):
`p.with_extension("lock")`. -/
def lockfile_path (p : List Char) : List Char := withExtension p "lock".toList

/-- The path on which `Database::new` (spartacus_storage lib.rs:121-132)
opens the lock file and takes the exclusive advisory lock. -/
def databaseNewLockPath (path : List Char) : List Char := lockfile_path path

/-! ## Encrypted store (src/spartacus_storage/src/lib.rs) -/

/-- `VerificationInfo` (lib.rs:49). -/
structure VerificationInfo where
  verified_date : Option Int
  deriving DecidableEq

/-- `VerificationInfo::now` (lib.rs:56); the clock reading is an input. -/
def VerificationInfo.now (t : Int) : VerificationInfo := ⟨some t⟩

/-- `VerificationInfo::unverified` (lib.rs:62). -/
def VerificationInfo.unverified : VerificationInfo := ⟨none⟩

/-- Behavioural model of `BTreeMap`: an association list with
insert-replaces semantics.  (The on-disk iteration order of the real
`BTreeMap` is irrelevant to the claims proved here.) -/
def mapInsert {K V : Type} [DecidableEq K] : List (K × V) → K → V → List (K × V)
  | [], k, v => [(k, v)]
  | (k', v') :: rest, k, v =>
    if k = k' then (k, v) :: rest else (k', v') :: mapInsert rest k v

def mapLookup {K V : Type} [DecidableEq K] : List (K × V) → K → Option V
  | [], _ => none
  | (k', v') :: rest, k => if k = k' then some v' else mapLookup rest k

/-- `BTreeMap::remove`. -/
def mapRemove {K V : Type} [DecidableEq K] (m : List (K × V)) (k : K) : List (K × V) :=
  m.filter (fun p => decide (¬ p.1 = k))

/-- `BTreeMap::extend`: insert each pair in order, overwriting. -/
def mapExtend {K V : Type} [DecidableEq K] (m : List (K × V)) (ps : List (K × V)) :
    List (K × V) :=
  ps.foldl (fun acc p => mapInsert acc p.1 p.2) m

/-- `DatabaseContentsV0` (lib.rs:77). -/
structure DatabaseContentsV0 where
  private_keys : List (PublicKey × PrivateKey)
  public_keys : List (PublicKey × VerificationInfo)

/-- `VisibleDatabaseContents` (lib.rs:102). -/
structure VisibleDatabaseContents where
  my_public_keys : List PublicKey
  their_public_keys : List (PublicKey × VerificationInfo)

/-- `DatabaseContentsV0::get_visible` (lib.rs:108): project the private-key
map to its public keys and clone the public map. -/
def DatabaseContentsV0.get_visible (c : DatabaseContentsV0) : VisibleDatabaseContents :=
  { my_public_keys := c.private_keys.map (fun p => p.1),
    their_public_keys := c.public_keys }

/-- The outcomes of the external effects of one mutation: whether reading
and decrypting the database file succeeds, whether the encrypt-and-write of
the temporary file succeeds, whether the atomic rename succeeds, whether
the final fsync succeeds, and the clock reading for `set_verified`. -/
structure StorageWorld where
  readOk : Bool
  encryptOk : Bool
  persistOk : Bool
  syncOk : Bool
  time : Int

/-- The state a `Database` handle sees: the decrypted disk contents and the
cached visible view (lib.rs:40-46). -/
structure DatabaseState where
  disk : DatabaseContentsV0
  visible_contents : VisibleDatabaseContents

/-- `Database::get_contents` (lib.rs:143): decrypt and deserialize the
current on-disk contents; any I/O, authentication or parse failure is an
error that changes nothing. -/
def Database.get_contents (st : DatabaseState) (w : StorageWorld) :
    Except Unit DatabaseContentsV0 :=
  if w.readOk then Except.ok st.disk else Except.error ()

/-- `Database::write_contents` (lib.rs:192): serialize, encrypt into a
temporary file, atomically rename it over the database path, fsync, and only
then replace the cached visible view with the view of the new contents. -/
def Database.write_contents (st : DatabaseState) (w : StorageWorld)
    (db : DatabaseContentsV0) : Except Unit Unit × DatabaseState :=
  let result_vis := db.get_visible
  if ¬ w.encryptOk then (Except.error (), st)
  else if ¬ w.persistOk then (Except.error (), st)
  else
    let st1 : DatabaseState := { st with disk := db }
    if ¬ w.syncOk then (Except.error (), st1)
    else (Except.ok (), { st1 with visible_contents := result_vis })

/-- `Database::set_verified` (lib.rs:239). -/
def Database.set_verified (st : DatabaseState) (w : StorageWorld) (k : PublicKey) :
    Except Unit Unit × DatabaseState :=
  match Database.get_contents st w with
  | Except.error _ => (Except.error (), st)
  | Except.ok c =>
    Database.write_contents st w
      { c with public_keys := mapInsert c.public_keys k (VerificationInfo.now w.time) }

/-- `Database::set_unverified` (lib.rs:247). -/
def Database.set_unverified (st : DatabaseState) (w : StorageWorld) (k : PublicKey) :
    Except Unit Unit × DatabaseState :=
  match Database.get_contents st w with
  | Except.error _ => (Except.error (), st)
  | Except.ok c =>
    Database.write_contents st w
      { c with public_keys := mapInsert c.public_keys k VerificationInfo.unverified }

/-- `Database::add_public_keys` (lib.rs:255). -/
def Database.add_public_keys (st : DatabaseState) (w : StorageWorld)
    (public_keys : List PublicKey) : Except Unit Unit × DatabaseState :=
  match Database.get_contents st w with
  | Except.error _ => (Except.error (), st)
  | Except.ok c =>
    let newMap :=
      mapExtend c.public_keys (public_keys.map (fun k => (k, VerificationInfo.unverified)))
    Database.write_contents st w { c with public_keys := newMap }

/-- `Database::delete_public_key` (lib.rs:266). -/
def Database.delete_public_key (st : DatabaseState) (w : StorageWorld) (k : PublicKey) :
    Except Unit Unit × DatabaseState :=
  match Database.get_contents st w with
  | Except.error _ => (Except.error (), st)
  | Except.ok c =>
    Database.write_contents st w { c with public_keys := mapRemove c.public_keys k }

/-- `Database::import_private_key` (lib.rs:285). -/
def Database.import_private_key (st : DatabaseState) (w : StorageWorld)
    (key : PrivateKey) : Except Unit Unit × DatabaseState :=
  match Database.get_contents st w with
  | Except.error _ => (Except.error (), st)
  | Except.ok c =>
    Database.write_contents st w
      { c with private_keys := mapInsert c.private_keys key.public key }

/-- `Database::new_private_key` (lib.rs:272): construct the identity (which
may fail before anything is read or written), generate the key, and import
it. -/
def Database.new_private_key (st : DatabaseState) (w : StorageWorld)
    (name : List Char) (email : List Char) (key : Scalar) (rnd0 : Nat → Scalar)
    (a0 : Scalar) : Except Unit Unit × DatabaseState :=
  match Identity.new name email with
  | none => (Except.error (), st)
  | some id => Database.import_private_key st w (PrivateKey.new id key rnd0 a0)

/-- `Database::delete_private_key` (lib.rs:303). -/
def Database.delete_private_key (st : DatabaseState) (w : StorageWorld) (k : PublicKey) :
    Except Unit Unit × DatabaseState :=
  match Database.get_contents st w with
  | Except.error _ => (Except.error (), st)
  | Except.ok c =>
    Database.write_contents st w { c with private_keys := mapRemove c.private_keys k }

/-- The seven database mutations (spec §4.7). -/
inductive Mutation
  | newPrivateKey (name : List Char) (email : List Char) (key : Scalar)
      (rnd0 : Nat → Scalar) (a0 : Scalar)
  | importPrivateKey (key : PrivateKey)
  | deletePrivateKey (k : PublicKey)
  | addPublicKeys (ks : List PublicKey)
  | deletePublicKey (k : PublicKey)
  | setVerified (k : PublicKey)
  | setUnverified (k : PublicKey)

/-- Dispatch a mutation to its implementation. -/
def applyMutation (st : DatabaseState) (w : StorageWorld) :
    Mutation → Except Unit Unit × DatabaseState
  | Mutation.newPrivateKey name email key rnd0 a0 =>
    Database.new_private_key st w name email key rnd0 a0
  | Mutation.importPrivateKey key => Database.import_private_key st w key
  | Mutation.deletePrivateKey k => Database.delete_private_key st w k
  | Mutation.addPublicKeys ks => Database.add_public_keys st w ks
  | Mutation.deletePublicKey k => Database.delete_public_key st w k
  | Mutation.setVerified k => Database.set_verified st w k
  | Mutation.setUnverified k => Database.set_unverified st w k

/-! ## The fingerprint serialization order the spec's words state

The spec's fingerprint paragraph lists the fields as "version + identity +
keypoint + attestation"; the code's derived `BorshSerialize` writes the
declared field order `holder, version, keypoint, holder_attestation`
(`serPublicKey`).  The following definitions follow the spec's words, for
comparison against the code's order. -/

def serPublicKeySpecOrder (k : PublicKey) : List Nat :=
  serVersion k.version ++ serIdentity k.holder ++ serPoint k.keypoint ++
    serSignature k.holder_attestation

/-- The fingerprint computed with the spec's stated field order. -/
def fingerprintSpecOrder (k : PublicKey) : List Char :=
  let res := z85Encode (sha3_256 (serPublicKeySpecOrder k))
  ((res.insertIdx 30 ' ').insertIdx 20 ' ').insertIdx 10 ' '

/-! ## Sample data for concrete instantiations -/

def sampleIdentity : Identity :=
  { name := ['A'], email := ⟨['a'], by decide⟩, name_ok := by decide }

def samplePrivateKey : PrivateKey := PrivateKey.new sampleIdentity 1 (fun _ => 0) 0

def samplePk : PublicKey := samplePrivateKey.public

/-- A structurally trivial key (used where attestation validity is
irrelevant). -/
def trivialKey : PublicKey :=
  { holder := { name := [], email := ⟨[], by decide⟩, name_ok := by decide },
    version := ZebraVersion.ZebraOneBeta,
    keypoint := 0,
    holder_attestation := { challenge := 0, ring_responses := [] } }

def sampleWorld : StorageWorld :=
  { readOk := true, encryptOk := true, persistOk := true, syncOk := true, time := 0 }

def sampleDbState : DatabaseState :=
  { disk := { private_keys := [], public_keys := [] },
    visible_contents := { my_public_keys := [], their_public_keys := [] } }

/-- The Borsh size limits inherent in the `u32` length prefixes of one
serialized `PublicKey`. -/
def wireSizeOk (k : PublicKey) : Prop :=
  (utf8Encode k.holder.name).length < 4294967296 ∧
    k.holder.email.chars.length < 4294967296 ∧
    k.holder_attestation.ring_responses.length < 4294967296

instance (k : PublicKey) : Decidable (wireSizeOk k) :=
  inferInstanceAs (Decidable (_ ∧ _ ∧ _))

/-! ## Theorems -/

@[simp] theorem leBytes_length (k n : Nat) : (leBytes k n).length = k := by
  induction k generalizing n with
  | zero => rfl
  | succ k ih => simp [leBytes, ih]

theorem leBytes_lt (k n : Nat) : ∀ b ∈ leBytes k n, b < 256 := by
  induction k generalizing n with
  | zero => simp [leBytes]
  | succ k ih =>
    intro b hb
    simp only [leBytes, List.mem_cons] at hb
    rcases hb with h | h
    · omega
    · exact ih _ _ h

theorem fromLE_leBytes (k n : Nat) (h : n < 256 ^ k) : fromLE (leBytes k n) = n := by
  induction k generalizing n with
  | zero => simp [leBytes, fromLE]; omega
  | succ k ih =>
    have hlt : n / 256 < 256 ^ k := by
      rw [Nat.div_lt_iff_lt_mul (by norm_num)]
      calc n < 256 ^ (k + 1) := h
        _ = 256 ^ k * 256 := by ring
    simp [leBytes, fromLE, ih _ hlt]
    omega

theorem leBytes_injOn {k : Nat} {m n : Nat} (hm : m < 256 ^ k) (hn : n < 256 ^ k)
    (h : leBytes k m = leBytes k n) : m = n := by
  have h1 := fromLE_leBytes k m hm
  have h2 := fromLE_leBytes k n hn
  rw [← h1, ← h2, h]

theorem compress_injective {p q : RistrettoPoint} (h : p.compress = q.compress) : p = q := by
  have hp : p.val < 256 ^ 32 := lt_trans (ZMod.val_lt p) (by norm_num [gOrder])
  have hq : q.val < 256 ^ 32 := lt_trans (ZMod.val_lt q) (by norm_num [gOrder])
  exact ZMod.val_injective _ (leBytes_injOn hp hq h)

@[simp] theorem sha3_256_length (bs : List Nat) : (sha3_256 bs).length = 32 := by
  simp [sha3_256]

theorem sha3_256_lt (bs : List Nat) : ∀ b ∈ sha3_256 bs, b < 256 := by
  intro b hb
  simp only [sha3_256, List.mem_map] at hb
  obtain ⟨i, _, rfl⟩ := hb
  exact Nat.mod_lt _ (by norm_num)

/-! ## List helper lemmas (stable under library naming churn) -/

theorem getD_set_self {α : Type} (l : List α) (i : Nat) (v d : α) (h : i < l.length) :
    (l.set i v).getD i d = v := by
  induction l generalizing i with
  | nil => simp at h
  | cons x xs ih =>
    cases i with
    | zero => rfl
    | succ j => exact ih j (by simpa using h)

theorem getD_set_ne {α : Type} (l : List α) (i j : Nat) (v d : α) (h : i ≠ j) :
    (l.set i v).getD j d = l.getD j d := by
  induction l generalizing i j with
  | nil => rfl
  | cons x xs ih =>
    cases i with
    | zero => cases j with
      | zero => exact absurd rfl h
      | succ _ => rfl
    | succ i' => cases j with
      | zero => rfl
      | succ j' => exact ih i' j' (by omega)

theorem getD_map_range {α : Type} (f : Nat → α) (n j : Nat) (h : j < n) (d : α) :
    ((List.range n).map f).getD j d = f j := by
  induction n generalizing j f with
  | zero => omega
  | succ n ih =>
    rw [List.range_succ, List.map_append]
    rcases Nat.lt_or_ge j n with hj | hj
    · rw [List.getD_append _ _ _ _ (by simpa using hj)]
      exact ih f j hj
    · have hjn : j = n := by omega
      subst hjn
      rw [List.getD_append_right _ _ _ _ (by simp)]
      simp

theorem zip_drop_succ {α β : Type} (d1 : α) (d2 : β) :
    ∀ (j : Nat) (l1 : List α) (l2 : List β), j < l1.length → j < l2.length →
      (l1.zip l2).drop j = (l1.getD j d1, l2.getD j d2) :: (l1.zip l2).drop (j + 1)
  | 0, a :: _, b :: _, _, _ => rfl
  | j + 1, a :: t1, b :: t2, h1, h2 => by
    have := zip_drop_succ d1 d2 j t1 t2 (by simpa using h1) (by simpa using h2)
    simpa [List.zip_cons_cons] using this

theorem getD_eq_zero_getD {α : Type} (l : List α) (j : Nat) (d : α) (h : j < l.length) (d' : α) :
    l.getD j d = l.getD j d' := by
  induction l generalizing j with
  | nil => simp at h
  | cons x xs ih =>
    cases j with
    | zero => rfl
    | succ j' => exact ih j' (by simpa using h)

/-! ## Modular-index lemmas for the signing loop -/

theorem mod_add_one_mod (x n : Nat) : (x % n + 1) % n = (x + 1) % n := by
  conv_rhs => rw [Nat.add_mod]
  rw [Nat.add_mod (x % n) 1 n, Nat.mod_mod_of_dvd _ dvd_rfl]

theorem loop_idx_distinct {n pi s t : Nat} (hs : 1 ≤ s) (hs' : s ≤ n) (ht : 1 ≤ t)
    (ht' : t ≤ n) (hne : s ≠ t) : (pi + s) % n ≠ (pi + t) % n := by
  intro h
  have hn : 0 < n := by omega
  have hmod : s % n = t % n := by
    have h1 : (pi + s) % n = (pi + t) % n := h
    have h2 : pi % n + s % n ≡ pi % n + t % n [MOD n] := by
      calc pi % n + s % n ≡ pi + s [MOD n] :=
            Nat.ModEq.add (Nat.mod_modEq pi n) (Nat.mod_modEq s n)
        _ ≡ pi + t [MOD n] := h1
        _ ≡ pi % n + t % n [MOD n] :=
            (Nat.ModEq.add (Nat.mod_modEq pi n) (Nat.mod_modEq t n)).symm
    have h3 : s % n ≡ t % n [MOD n] := h2.add_left_cancel' (pi % n)
    have h4 : s % n < n := Nat.mod_lt _ hn
    have h5 : t % n < n := Nat.mod_lt _ hn
    simpa [Nat.ModEq, Nat.mod_eq_of_lt h4, Nat.mod_eq_of_lt h5] using h3
  rcases Nat.lt_or_ge s n with hsn | hsn <;> rcases Nat.lt_or_ge t n with htn | htn
  · rw [Nat.mod_eq_of_lt hsn, Nat.mod_eq_of_lt htn] at hmod; omega
  · have hteq : t = n := by omega
    subst hteq
    rw [Nat.mod_eq_of_lt hsn, Nat.mod_self] at hmod; omega
  · have hseq : s = n := by omega
    subst hseq
    rw [Nat.mod_self, Nat.mod_eq_of_lt htn] at hmod; omega
  · omega

theorem loop_idx_surjective {n pi : Nat} (hn : 0 < n) (j : Nat) (hj : j < n) :
    ∃ t, 1 ≤ t ∧ t ≤ n ∧ (pi + t) % n = j := by
  set p := pi % n with hp
  have hpn : p < n := Nat.mod_lt _ hn
  have hpi : n * (pi / n) + p = pi := Nat.div_add_mod pi n
  have hsucc : n * (pi / n + 1) = n * (pi / n) + n := by ring
  rcases Nat.lt_trichotomy j p with hlt | heq | hgt
  · refine ⟨n + j - p, by omega, by omega, ?_⟩
    have : pi + (n + j - p) = n * (pi / n + 1) + j := by omega
    rw [this, Nat.mul_add_mod]
    exact Nat.mod_eq_of_lt hj
  · refine ⟨n, by omega, le_refl n, ?_⟩
    have : pi + n = n * (pi / n + 1) + j := by omega
    rw [this, Nat.mul_add_mod]
    exact Nat.mod_eq_of_lt hj
  · refine ⟨j - p, by omega, by omega, ?_⟩
    have : pi + (j - p) = n * (pi / n) + j := by omega
    rw [this, Nat.mul_add_mod]
    exact Nat.mod_eq_of_lt hj

/-- Invariant of the signing loop (lib.rs:107-116): after the offsets
`1, …, m` have been processed, the hash-update point is `chainU m` and the
challenge array holds `chainC (t-1)` at position `(pi + t) % n` for each
processed offset `t`. -/
theorem signLoop_spec (pfx : List Nat) (ring : List RistrettoPoint) (resp : List Scalar)
    (pi n : Nat) (a : Scalar) (hn : 0 < n) (m : Nat) (hm : m ≤ n) :
    ((List.range' 1 m).foldl (Signature.signStep pfx ring resp pi n)
        (List.replicate n (0 : Scalar), RistrettoPoint.mul_base a)).2
      = chainU pfx ring resp pi n a m
    ∧ ((List.range' 1 m).foldl (Signature.signStep pfx ring resp pi n)
        (List.replicate n (0 : Scalar), RistrettoPoint.mul_base a)).1.length = n
    ∧ ∀ t, 1 ≤ t → t ≤ m →
        ((List.range' 1 m).foldl (Signature.signStep pfx ring resp pi n)
            (List.replicate n (0 : Scalar), RistrettoPoint.mul_base a)).1.getD
          ((pi + t) % n) 0 = chainC pfx ring resp pi n a (t - 1) := by
  induction m with
  | zero =>
    refine ⟨rfl, by simp, ?_⟩
    intro t ht ht'
    omega
  | succ m ih =>
    obtain ⟨ihU, ihLen, ihC⟩ := ih (by omega)
    have hconcat : List.range' 1 (m + 1) = List.range' 1 m ++ [1 + m] := by
      simpa using @List.range'_concat 1 1 m
    rw [hconcat, List.foldl_append, List.foldl_cons, List.foldl_nil]
    have h1m : 1 + m = m + 1 := Nat.add_comm 1 m
    rw [h1m]
    set st := (List.range' 1 m).foldl (Signature.signStep pfx ring resp pi n)
      (List.replicate n (0 : Scalar), RistrettoPoint.mul_base a) with hst
    have hidx : (pi + (m + 1)) % n < n := Nat.mod_lt _ hn
    refine ⟨?_, ?_, ?_⟩
    · show RistrettoPoint.mul_base (resp.getD ((pi + (m + 1)) % n) 0) +
          hashToScalar (pfx ++ st.2.compress) * ring.getD ((pi + (m + 1)) % n) 0
        = chainU pfx ring resp pi n a (m + 1)
      rw [ihU]
      rfl
    · show (st.1.set ((pi + (m + 1)) % n) _).length = n
      rw [List.length_set, ihLen]
    · intro t ht ht'
      show (st.1.set ((pi + (m + 1)) % n) (hashToScalar (pfx ++ st.2.compress))).getD
          ((pi + t) % n) 0 = chainC pfx ring resp pi n a (t - 1)
      rcases Nat.lt_or_ge t (m + 1) with htm | htm
      · rw [getD_set_ne _ _ _ _ _
          (loop_idx_distinct (by omega) hm ht (by omega) (by omega))]
        exact ihC t ht (by omega)
      · have hteq : t = m + 1 := by omega
        subst hteq
        rw [getD_set_self _ _ _ _ (by rw [ihLen]; exact hidx), ihU]
        rfl

/-- The verification fold (lib.rs:141-147) closes: if every position of the
stored challenge array links to the next one, then starting from the stored
challenge the recomputation ends back at the stored challenge. -/
theorem verify_fold (pfx : List Nat) (ring : List RistrettoPoint) (resp2 : List Scalar)
    (cs : List Scalar) (n : Nat) (hn : 0 < n)
    (hring : ring.length = n) (hresp2 : resp2.length = n)
    (link : ∀ j, j < n →
      hashToScalar (pfx ++
          (RistrettoPoint.mul_base (resp2.getD j 0) + cs.getD j 0 * ring.getD j 0).compress)
        = cs.getD ((j + 1) % n) 0) :
    ∀ d j, j + d = n →
      ((ring.zip resp2).drop j).foldl
          (fun c kr =>
            hashToScalar (pfx ++
              (RistrettoPoint.mul_base kr.2 + c * kr.1).compress))
          (cs.getD (j % n) 0)
        = cs.getD 0 0 := by
  intro d
  induction d with
  | zero =>
    intro j hj
    have hjn : j = n := by omega
    subst hjn
    rw [List.drop_eq_nil_of_le (by rw [List.length_zip, hring, hresp2]; omega),
      List.foldl_nil, Nat.mod_self]
  | succ d ih =>
    intro j hj
    have hjn : j < n := by omega
    rw [zip_drop_succ 0 0 j ring resp2 (by omega) (by omega), List.foldl_cons,
      Nat.mod_eq_of_lt hjn, link j hjn]
    exact ih (j + 1) (by omega)

theorem findIdx_spec {α : Type} (p : α → Bool) (l : List α) (x : α) (hx : x ∈ l)
    (hpx : p x = true) : l.findIdx p < l.length ∧ p (l.getD (l.findIdx p) x) = true := by
  induction l with
  | nil => simp at hx
  | cons a t ih =>
    by_cases hpa : p a = true
    · simp [List.findIdx_cons, hpa]
    · rcases List.mem_cons.1 hx with rfl | hxt
      · exact absurd hpx hpa
      · obtain ⟨ih1, ih2⟩ := ih hxt
        rw [List.findIdx_cons]
        simp only [hpa, cond_false]
        exact ⟨by simpa using ih1, ih2⟩

theorem make_ring_perm {T : Type} (x : T) (others : List T) (f : T → RistrettoPoint) :
    (make_ring x others f).Perm (others ++ [x]) :=
  List.perm_insertionSort _ _

theorem make_ring_length {T : Type} (x : T) (others : List T) (f : T → RistrettoPoint) :
    (make_ring x others f).length = others.length + 1 := by
  have := (make_ring_perm x others f).length_eq
  simpa using this

theorem mem_make_ring_self {T : Type} (x : T) (others : List T) (f : T → RistrettoPoint) :
    x ∈ make_ring x others f :=
  (make_ring_perm x others f).mem_iff.2 (by simp)

/-- Completeness of the SAG scheme as implemented: a signature produced by
`Signature::sign` verifies against the same message, for every choice of the
`OsRng` samples. -/
theorem Signature.sign_verify (message : List Nat) (my_private_value : Scalar)
    (other_public_keypoints : List RistrettoPoint) (rnd : Nat → Scalar) (a : Scalar) :
    (Signature.sign message my_private_value other_public_keypoints rnd a).verify message
      = true := by
  set my_pub := RistrettoPoint.mul_base my_private_value with hmy_pub
  set n := other_public_keypoints.length + 1 with hn_def
  set ring := make_ring my_pub other_public_keypoints id with hring_def
  set pi := ring.findIdx (fun p => decide (p.compress = my_pub.compress)) with hpi_def
  set resp := (List.range n).map rnd with hresp_def
  set pfx := hash_message_and_ring message ring with hpfx_def
  set looped := (List.range' 1 n).foldl (Signature.signStep pfx ring resp pi n)
    (List.replicate n (0 : Scalar), RistrettoPoint.mul_base a) with hlooped
  set cs := looped.1 with hcs
  set resp2 := resp.set pi (a - cs.getD pi 0 * my_private_value) with hresp2
  have hn : 0 < n := by omega
  have hring_len : ring.length = n := by
    rw [hring_def, make_ring_length, hn_def]
  have hresp_len : resp.length = n := by simp [hresp_def]
  have hresp2_len : resp2.length = n := by
    rw [hresp2, List.length_set, hresp_len]
  -- the index found by the (modelled) binary search points at the signer's key
  have hfind := findIdx_spec (fun p : RistrettoPoint => decide (p.compress = my_pub.compress))
    ring my_pub (by rw [hring_def]; exact mem_make_ring_self _ _ _) (by simp)
  have hpi_lt : pi < n := by rw [hpi_def, ← hring_len]; exact hfind.1
  have hpi_val : ring.getD pi 0 = my_pub := by
    have h1 : ring.getD pi my_pub = my_pub := by
      have := hfind.2
      simp only [decide_eq_true_eq] at this
      exact compress_injective this
    calc ring.getD pi 0 = ring.getD pi my_pub :=
          getD_eq_zero_getD _ _ _ (by rw [hring_len]; exact hpi_lt) _
      _ = my_pub := h1
  -- the structure computed by `sign`
  have hsign : Signature.sign message my_private_value other_public_keypoints rnd a
      = { challenge := cs.getD 0 0, ring_responses := ring.zip resp2 } := rfl
  -- the loop invariant at the end of the loop
  obtain ⟨hU, hcs_len, hcs_val⟩ :=
    signLoop_spec pfx ring resp pi n a hn n (le_refl n)
  -- the challenge stored at the signer's index
  have hcs_pi : cs.getD pi 0 = chainC pfx ring resp pi n a (n - 1) := by
    have := hcs_val n (by omega) (le_refl n)
    rwa [Nat.add_mod_right, Nat.mod_eq_of_lt hpi_lt] at this
  -- the link property of the final state
  have link : ∀ j, j < n →
      hashToScalar (pfx ++
          (RistrettoPoint.mul_base (resp2.getD j 0) + cs.getD j 0 * ring.getD j 0).compress)
        = cs.getD ((j + 1) % n) 0 := by
    intro j hj
    obtain ⟨t, ht1, htn, hteq⟩ := @loop_idx_surjective n pi hn j hj
    rcases Nat.lt_or_ge t n with htlt | htge
    · -- a decoy index: the loop wrote `chainC (t-1)` here and `chainC t` next
      have hjpi : j ≠ pi := by
        intro hjpi
        have hpieq : (pi + n) % n = pi := by
          rw [Nat.add_mod_right, Nat.mod_eq_of_lt hpi_lt]
        exact loop_idx_distinct ht1 htn (by omega) (le_refl n) (by omega)
          (by rw [hteq, hjpi, hpieq])
      have hr2 : resp2.getD j 0 = resp.getD j 0 := by
        rw [hresp2, getD_set_ne _ _ _ _ _ (by omega)]
      have hcj : cs.getD j 0 = chainC pfx ring resp pi n a (t - 1) := by
        rw [← hteq]; exact hcs_val t ht1 htn
      have hnext : cs.getD ((j + 1) % n) 0 = chainC pfx ring resp pi n a t := by
        have h1 : ((pi + t) % n + 1) % n = (pi + (t + 1)) % n := by
          rw [mod_add_one_mod, Nat.add_assoc]
        have := hcs_val (t + 1) (by omega) (by omega)
        rw [← hteq, h1]
        simpa using this
      rw [hr2, hcj, hnext]
      obtain ⟨t', rfl⟩ : ∃ t', t = t' + 1 := ⟨t - 1, by omega⟩
      show hashToScalar (pfx ++
          (RistrettoPoint.mul_base (resp.getD j 0) +
            chainC pfx ring resp pi n a t' * ring.getD j 0).compress)
        = chainC pfx ring resp pi n a (t' + 1)
      have hCU : chainC pfx ring resp pi n a (t' + 1)
          = hashToScalar (pfx ++
              (RistrettoPoint.mul_base (resp.getD ((pi + (t' + 1)) % n) 0) +
                chainC pfx ring resp pi n a t' *
                  ring.getD ((pi + (t' + 1)) % n) 0).compress) := rfl
      rw [hCU, hteq]
    · -- the signer's index: the closing response rewinds the chain to `[a]G`
      have hteq' : t = n := by omega
      subst hteq'
      have hjpi : j = pi := by
        rw [← hteq, Nat.add_mod_right, Nat.mod_eq_of_lt hpi_lt]
      have hr2 : resp2.getD j 0 = a - cs.getD pi 0 * my_private_value := by
        rw [hresp2, hjpi, getD_set_self _ _ _ _ (by rw [hresp_len]; omega)]
      have hclose : RistrettoPoint.mul_base (resp2.getD j 0) + cs.getD j 0 * ring.getD j 0
          = RistrettoPoint.mul_base a := by
        rw [hr2, hjpi, hpi_val, hmy_pub]
        show a - cs.getD pi 0 * my_private_value + cs.getD pi 0 * my_private_value
          = RistrettoPoint.mul_base a
        show a - cs.getD pi 0 * my_private_value + cs.getD pi 0 * my_private_value = a
        ring
      have hnext : cs.getD ((j + 1) % n) 0 = chainC pfx ring resp pi n a 0 := by
        rw [hjpi]
        have := hcs_val 1 (le_refl 1) (by omega)
        simpa using this
      rw [hclose, hnext]
      rfl
  -- run the verification fold
  rw [hsign]
  show decide (cs.getD 0 0 = _) = true
  have hmapfst : (ring.zip resp2).map Prod.fst = ring :=
    List.map_fst_zip _ _ (by omega)
  have hfold := verify_fold pfx ring resp2 cs n hn hring_len hresp2_len link n 0 (by omega)
  rw [List.drop_zero, Nat.zero_mod] at hfold
  simp only [Signature.verify, hmapfst]
  rw [← hpfx_def, hfold]
  simp

theorem char_toNat_valid (c : Char) :
    c.toNat < 0xD800 ∨ (0xDFFF < c.toNat ∧ c.toNat < 0x110000) := by
  have h := c.valid
  rcases h with h | ⟨h1, h2⟩
  · left
    have : c.val.toNat < 0xD800 := by exact_mod_cast h
    simpa [Char.toNat] using this
  · right
    have h1' : 0xDFFF < c.val.toNat := by exact_mod_cast h1
    have h2' : c.val.toNat < 0x110000 := by exact_mod_cast h2
    exact ⟨by simpa [Char.toNat] using h1', by simpa [Char.toNat] using h2'⟩

theorem utf8Cont_cons (b : Nat) (rest : List Nat) (h : 0x80 ≤ b ∧ b < 0xC0) :
    utf8Cont (b :: rest) = some (b, rest) := by
  rw [utf8Cont, if_pos h]

theorem utf8DecodeAux_encodeChar (c : Char) (fuel : Nat) (bs : List Nat) :
    utf8DecodeAux (fuel + 1) (utf8EncodeChar c ++ bs)
      = (utf8DecodeAux fuel bs).map (fun cs => c :: cs) := by
  have hv := char_toNat_valid c
  have hc : Char.ofNat c.toNat = c := Char.ofNat_toNat c
  rcases Nat.lt_or_ge c.toNat 0x80 with h1 | h1
  · rw [utf8EncodeChar.eq_def, if_pos h1, List.cons_append, List.nil_append,
      utf8DecodeAux, utf8Step, if_pos h1, hc]
  rcases Nat.lt_or_ge c.toNat 0x800 with h2 | h2
  · rw [utf8EncodeChar.eq_def, if_neg (by omega), if_pos h2, List.cons_append,
      List.cons_append, List.nil_append, utf8DecodeAux, utf8Step,
      if_neg (by omega), if_neg (by omega), if_pos (by omega),
      utf8Cont_cons _ _ (by omega), Option.some_bind]
    have harith : (0xC0 + c.toNat / 64 - 0xC0) * 64 + (0x80 + c.toNat % 64 - 0x80)
        = c.toNat := by omega
    simp only [harith, hc]
  rcases Nat.lt_or_ge c.toNat 0x10000 with h3 | h3
  · rw [utf8EncodeChar.eq_def, if_neg (by omega), if_neg (by omega), if_pos h3,
      List.cons_append, List.cons_append, List.cons_append, List.nil_append,
      utf8DecodeAux, utf8Step, if_neg (by omega), if_neg (by omega), if_neg (by omega),
      if_pos (by omega), utf8Cont_cons _ _ (by omega), Option.some_bind,
      utf8Cont_cons _ _ (by omega), Option.some_bind]
    have harith : (0xE0 + c.toNat / 4096 - 0xE0) * 4096 +
        (0x80 + c.toNat / 64 % 64 - 0x80) * 64 + (0x80 + c.toNat % 64 - 0x80)
        = c.toNat := by omega
    simp only [harith]
    rw [if_pos (by omega), hc]
  · rw [utf8EncodeChar.eq_def, if_neg (by omega), if_neg (by omega), if_neg (by omega),
      List.cons_append, List.cons_append, List.cons_append, List.cons_append,
      List.nil_append, utf8DecodeAux, utf8Step, if_neg (by omega), if_neg (by omega),
      if_neg (by omega), if_neg (by omega), if_pos (by omega),
      utf8Cont_cons _ _ (by omega), Option.some_bind,
      utf8Cont_cons _ _ (by omega), Option.some_bind,
      utf8Cont_cons _ _ (by omega), Option.some_bind]
    have harith : (0xF0 + c.toNat / 262144 - 0xF0) * 262144 +
        (0x80 + c.toNat / 4096 % 64 - 0x80) * 4096 +
        (0x80 + c.toNat / 64 % 64 - 0x80) * 64 + (0x80 + c.toNat % 64 - 0x80)
        = c.toNat := by omega
    simp only [harith]
    rw [if_pos (by omega), hc]

theorem utf8Encode_cons (c : Char) (s : List Char) :
    utf8Encode (c :: s) = utf8EncodeChar c ++ utf8Encode s := by
  simp [utf8Encode]

theorem utf8DecodeAux_encode (s : List Char) : ∀ fuel, s.length ≤ fuel →
    utf8DecodeAux fuel (utf8Encode s) = some s := by
  induction s with
  | nil =>
    intro fuel _
    show utf8DecodeAux fuel [] = some []
    cases fuel <;> rfl
  | cons c s ih =>
    intro fuel hf
    obtain ⟨f, rfl⟩ : ∃ f, fuel = f + 1 := ⟨fuel - 1, by simp at hf; omega⟩
    rw [utf8Encode_cons, utf8DecodeAux_encodeChar, ih f (by simp at hf; omega)]
    rfl

theorem length_le_utf8Encode_length (s : List Char) : s.length ≤ (utf8Encode s).length := by
  induction s with
  | nil => simp [utf8Encode]
  | cons c s ih =>
    rw [utf8Encode_cons, List.length_append, List.length_cons]
    have : 1 ≤ (utf8EncodeChar c).length := by
      rw [utf8EncodeChar.eq_def]
      dsimp only
      split_ifs <;> simp
    omega

theorem utf8Decode_encode (s : List Char) : utf8Decode (utf8Encode s) = some s :=
  utf8DecodeAux_encode s _ (length_le_utf8Encode_length s)

theorem utf8EncodeChar_lt (c : Char) : ∀ b ∈ utf8EncodeChar c, b < 256 := by
  have hv := char_toNat_valid c
  intro b hb
  rw [utf8EncodeChar] at hb
  split_ifs at hb with h1 h2 h3 <;> simp only [List.mem_cons, List.not_mem_nil, or_false] at hb
  · omega
  · rcases hb with rfl | rfl <;> omega
  · rcases hb with rfl | rfl | rfl <;> omega
  · have h4 : c.toNat < 0x110000 := by omega
    rcases hb with rfl | rfl | rfl | rfl <;> omega

theorem utf8Encode_lt (s : List Char) : ∀ b ∈ utf8Encode s, b < 256 := by
  intro b hb
  simp only [utf8Encode, List.mem_flatten, List.mem_map] at hb
  obtain ⟨l, ⟨c, _, rfl⟩, hbl⟩ := hb
  exact utf8EncodeChar_lt c b hbl

/-! ## BoringAscii (src/boringascii/src/lib.rs) -/

theorem char_toNat_ofNat {b : Nat} (hv : b.isValidChar) : (Char.ofNat b).toNat = b := by
  rw [Char.ofNat, dif_pos hv]
  rfl

/-! ## The sorted ring of keys projects onto the sorted ring of keypoints -/

theorem orderedInsert_map {T : Type} (f : T → RistrettoPoint) (x : T) (l : List T) :
    (List.orderedInsert (ringLe f) x l).map f
      = List.orderedInsert (ringLe id) (f x) (l.map f) := by
  induction l with
  | nil => rfl
  | cons b t ih =>
    by_cases h : ringLe f x b
    · have h' : ringLe id (f x) (f b) := h
      rw [List.orderedInsert_of_le _ _ h, List.map_cons, List.map_cons,
        List.orderedInsert_of_le _ _ h']
    · have h' : ¬ ringLe id (f x) (f b) := h
      rw [List.orderedInsert, if_neg h, List.map_cons, List.map_cons,
        List.orderedInsert, if_neg h', ih]

theorem insertionSort_map {T : Type} (f : T → RistrettoPoint) (l : List T) :
    (List.insertionSort (ringLe f) l).map f = List.insertionSort (ringLe id) (l.map f) := by
  induction l with
  | nil => rfl
  | cons b t ih =>
    rw [List.insertionSort.eq_def, List.insertionSort.eq_def, List.map_cons,
      orderedInsert_map, ih]

theorem make_ring_map {T : Type} (my : T) (others : List T) (f : T → RistrettoPoint) :
    (make_ring my others f).map f = make_ring (f my) (others.map f) id := by
  rw [make_ring, make_ring, insertionSort_map, List.map_append, List.map_cons, List.map_nil]

/-- Rebuilding the keypoint/response pairs from the zipped public-key ring
(as `SignedMessage::signature` does) recovers the raw signature entries. -/
theorem zip_rebuild {α β γ : Type} (g : γ → α) :
    ∀ (u : List (α × β)) (w : List γ), w.map g = u.map Prod.fst →
      (((u.zip w).map (fun x => (x.2, x.1.2))).map (fun ks => (g ks.1, ks.2))) = u := by
  intro u
  induction u with
  | nil => intro w _; simp
  | cons p u ih =>
    intro w h
    cases w with
    | nil => simp at h
    | cons c w =>
      simp only [List.map_cons, List.cons.injEq] at h
      obtain ⟨h1, h2⟩ := h
      rw [List.zip_cons_cons, List.map_cons, List.map_cons, ih w h2]
      simp [h1]

/-! ## Structure of the signature produced by `Signature::sign` -/

theorem sign_ring_responses (message : List Nat) (k : Scalar)
    (others : List RistrettoPoint) (rnd : Nat → Scalar) (a : Scalar) :
    ∃ resps : List Scalar,
      (Signature.sign message k others rnd a).ring_responses
        = (make_ring (RistrettoPoint.mul_base k) others id).zip resps
      ∧ resps.length = others.length + 1 := by
  set n := others.length + 1 with hn_def
  set ring := make_ring (RistrettoPoint.mul_base k) others id with hring_def
  set pi := ring.findIdx
    (fun p => decide (p.compress = (RistrettoPoint.mul_base k).compress)) with hpi_def
  set resp := (List.range n).map rnd with hresp_def
  set pfx := hash_message_and_ring message ring with hpfx_def
  set looped := (List.range' 1 n).foldl (Signature.signStep pfx ring resp pi n)
    (List.replicate n (0 : Scalar), RistrettoPoint.mul_base a) with hlooped
  set cs := looped.1 with hcs
  set resp2 := resp.set pi (a - cs.getD pi 0 * k) with hresp2
  have hsign : Signature.sign message k others rnd a
      = { challenge := cs.getD 0 0, ring_responses := ring.zip resp2 } := rfl
  refine ⟨resp2, by rw [hsign], ?_⟩
  rw [hresp2, List.length_set, hresp_def]
  simp

theorem sign_rr_map_fst (message : List Nat) (k : Scalar)
    (others : List RistrettoPoint) (rnd : Nat → Scalar) (a : Scalar) :
    (Signature.sign message k others rnd a).ring_responses.map Prod.fst
      = make_ring (RistrettoPoint.mul_base k) others id := by
  obtain ⟨resps, heq, hlen⟩ := sign_ring_responses message k others rnd a
  rw [heq]
  exact List.map_fst_zip _ _ (by rw [hlen, make_ring_length])

theorem sign_rr_length (message : List Nat) (k : Scalar)
    (others : List RistrettoPoint) (rnd : Nat → Scalar) (a : Scalar) :
    (Signature.sign message k others rnd a).ring_responses.length
      = others.length + 1 := by
  obtain ⟨resps, heq, hlen⟩ := sign_ring_responses message k others rnd a
  rw [heq, List.length_zip, hlen, make_ring_length]
  simp

/-! ## The self-attestation produced by `PrivateKey::new` validates -/

theorem privateKey_new_validates (holder : Identity) (key : Scalar)
    (rnd0 : Nat → Scalar) (a0 : Scalar) :
    (PrivateKey.new holder key rnd0 a0).public.validate_attestation = true := by
  set img := holder.bytes_for_attestation (RistrettoPoint.mul_base key) with himg
  have hring : make_ring (RistrettoPoint.mul_base key) ([] : List RistrettoPoint) id
      = [RistrettoPoint.mul_base key] := rfl
  have hfst := sign_rr_map_fst img key [] rnd0 a0
  rw [hring] at hfst
  have hlen := sign_rr_length img key [] rnd0 a0
  simp only [List.length_nil, Nat.zero_add] at hlen
  set att := Signature.sign img key [] rnd0 a0 with hatt
  obtain ⟨pr, hpr⟩ : ∃ pr, att.ring_responses = [pr] := by
    cases hrr : att.ring_responses with
    | nil => rw [hrr] at hlen; simp at hlen
    | cons p t =>
      cases t with
      | nil => exact ⟨p, rfl⟩
      | cons q t' => rw [hrr] at hlen; simp at hlen
  have hp1 : pr.1 = RistrettoPoint.mul_base key := by
    rw [hpr] at hfst
    simpa using hfst
  show (if att.ring_responses.length = 1 then
      if (att.ring_responses.getD 0 (0, 0)).1 = RistrettoPoint.mul_base key then
        att.verify img
      else false
    else false) = true
  rw [hpr]
  rw [if_pos (by simp), if_pos (by simpa using hp1)]
  exact Signature.sign_verify img key [] rnd0 a0

/-! ## Structure of `SignedMessage::sign` -/

theorem signedMessage_sign_eq (message : List Char) (my_key : PrivateKey)
    (other_keys : List PublicKey) (rnd : Nat → Scalar) (a : Scalar) :
    SignedMessage.sign message my_key other_keys rnd a
      = { message := message,
          challenge := (Signature.sign (utf8Encode message) my_key.key
            ((other_keys.filter (fun k => decide (¬ k = my_key.public))).map
              (fun k => k.keypoint)) rnd a).challenge,
          ring := ((Signature.sign (utf8Encode message) my_key.key
              ((other_keys.filter (fun k => decide (¬ k = my_key.public))).map
                (fun k => k.keypoint)) rnd a).ring_responses.zip
              (make_ring my_key.public
                (other_keys.filter (fun k => decide (¬ k = my_key.public)))
                (fun k => k.keypoint))).map (fun x => (x.2, x.1.2)) } := rfl

theorem signedMessage_ring_map_fst (message : List Char) (my_key : PrivateKey)
    (other_keys : List PublicKey) (rnd : Nat → Scalar) (a : Scalar) :
    (SignedMessage.sign message my_key other_keys rnd a).ring.map Prod.fst
      = make_ring my_key.public
          (other_keys.filter (fun k => decide (¬ k = my_key.public)))
          (fun k => k.keypoint) := by
  rw [signedMessage_sign_eq]
  rw [List.map_map]
  exact List.map_snd_zip _ _
    (by rw [sign_rr_length, make_ring_length, List.length_map])

/-- The reconstructed signature of a signed message is the raw SAG signature
that `SignedMessage::sign` obtained. -/
theorem signedMessage_signature_eq (message : List Char) (my_key : PrivateKey)
    (other_keys : List PublicKey) (rnd : Nat → Scalar) (a : Scalar) :
    (SignedMessage.sign message my_key other_keys rnd a).signature
      = Signature.sign (utf8Encode message) my_key.key
          ((other_keys.filter (fun k => decide (¬ k = my_key.public))).map
            (fun k => k.keypoint)) rnd a := by
  set others2 := other_keys.filter (fun k => decide (¬ k = my_key.public)) with hothers2
  set sig := Signature.sign (utf8Encode message) my_key.key
    (others2.map (fun k => k.keypoint)) rnd a with hsig
  set ringKeys := make_ring my_key.public others2 (fun k => k.keypoint) with hringKeys
  have hmapkp : ringKeys.map (fun k => k.keypoint)
      = sig.ring_responses.map Prod.fst := by
    rw [hringKeys, make_ring_map, hsig, sign_rr_map_fst]
    rfl
  have hz : ((sig.ring_responses.zip ringKeys).map
        (fun x => (x.2, x.1.2))).map (fun ks => (ks.1.keypoint, ks.2))
      = sig.ring_responses :=
    zip_rebuild (fun k : PublicKey => k.keypoint) sig.ring_responses ringKeys hmapkp
  rw [signedMessage_sign_eq]
  show Signature.mk sig.challenge
      (((sig.ring_responses.zip ringKeys).map
        (fun x => (x.2, x.1.2))).map (fun ks => (ks.1.keypoint, ks.2)))
    = sig
  rw [hz]

/-- Core of spec law 2: signing with a key from `PrivateKey::new` and any
list of others whose attestations validate produces a message that
verifies. -/
theorem signedMessage_sign_verifies (message : List Char) (holder : Identity)
    (key : Scalar) (rnd0 : Nat → Scalar) (a0 : Scalar) (os : List PublicKey)
    (rnd : Nat → Scalar) (a : Scalar)
    (hval : ∀ k ∈ os, k.validate_attestation = true) :
    (SignedMessage.sign message (PrivateKey.new holder key rnd0 a0) os rnd a).verify
      = true := by
  set pk := PrivateKey.new holder key rnd0 a0 with hpk
  rw [SignedMessage.verify, Bool.and_eq_true]
  constructor
  · rw [List.all_eq_true]
    intro ks hks
    have hfst : ks.1 ∈ (SignedMessage.sign message pk os rnd a).ring.map Prod.fst :=
      List.mem_map_of_mem _ hks
    rw [signedMessage_ring_map_fst] at hfst
    have hperm := make_ring_perm pk.public (os.filter (fun k => decide (¬ k = pk.public)))
      (fun k => k.keypoint)
    rw [hperm.mem_iff, List.mem_append] at hfst
    rcases hfst with hmem | hmem
    · exact hval _ (List.mem_of_mem_filter hmem)
    · have : ks.1 = pk.public := by simpa using hmem
      rw [this, hpk]
      exact privateKey_new_validates holder key rnd0 a0
  · have hmsg : (SignedMessage.sign message pk os rnd a).message = message := rfl
    rw [hmsg, signedMessage_signature_eq]
    exact Signature.sign_verify _ _ _ _ _

/-! ## Sortedness and membership structure of the signed-message ring -/

theorem make_ring_sorted {T : Type} (x : T) (others : List T) (f : T → RistrettoPoint) :
    List.Sorted (ringLe f) (make_ring x others f) :=
  List.sorted_insertionSort _ _

theorem count_filter_self {α : Type} [DecidableEq α] (x : α) (l : List α) :
    (l.filter (fun k => decide (¬ k = x))).count x = 0 := by
  rw [List.count_eq_zero]
  intro hmem
  have := List.of_mem_filter hmem
  simp at this

theorem make_ring_count_self (x : PublicKey) (others : List PublicKey)
    (f : PublicKey → RistrettoPoint) :
    (make_ring x others f).count x = others.count x + 1 := by
  rw [(make_ring_perm x others f).count_eq, List.count_append]
  simp

/-! ## Hex round trip -/

theorem hexDigitVal_hexDigitChar (n : Nat) (h : n < 16) :
    hexDigitVal (hexDigitChar n) = some n := by
  interval_cases n <;> rfl

theorem hexDecode_encode (bs : List Nat) (hb : ∀ b ∈ bs, b < 256) :
    hexDecode (hexEncodeUpper bs) = some bs := by
  induction bs with
  | nil => rfl
  | cons b t ih =>
    have hb256 : b < 256 := hb b (List.mem_cons_self _ _)
    have henc : hexEncodeUpper (b :: t)
        = hexDigitChar (b / 16) :: hexDigitChar (b % 16) :: hexEncodeUpper t := by
      simp [hexEncodeUpper]
    rw [henc, hexDecode, hexDigitVal_hexDigitChar _ (by omega),
      hexDigitVal_hexDigitChar _ (by omega), Option.some_bind, Option.some_bind,
      ih (fun x hx => hb x (List.mem_cons_of_mem _ hx))]
    have : b / 16 * 16 + b % 16 = b := by omega
    simp [this]

theorem hexEncodeUpper_length (bs : List Nat) :
    (hexEncodeUpper bs).length = 2 * bs.length := by
  induction bs with
  | nil => rfl
  | cons b t ih =>
    have : hexEncodeUpper (b :: t)
        = hexDigitChar (b / 16) :: hexDigitChar (b % 16) :: hexEncodeUpper t := by
      simp [hexEncodeUpper]
    rw [this]
    simp [ih]
    omega

theorem isHexUpperChar_hexDigitChar (n : Nat) (h : n < 16) :
    isHexUpperChar (hexDigitChar n) = true := by
  interval_cases n <;> rfl

theorem hexEncodeUpper_all_hex (bs : List Nat) (hb : ∀ b ∈ bs, b < 256) :
    (hexEncodeUpper bs).all isHexUpperChar = true := by
  rw [List.all_eq_true]
  intro c hc
  simp only [hexEncodeUpper, List.mem_flatten, List.mem_map] at hc
  obtain ⟨l, ⟨b, hbmem, rfl⟩, hcl⟩ := hc
  have hb256 : b < 256 := hb b hbmem
  simp only [List.mem_cons, List.not_mem_nil, or_false] at hcl
  rcases hcl with rfl | rfl
  · exact isHexUpperChar_hexDigitChar _ (by omega)
  · exact isHexUpperChar_hexDigitChar _ (by omega)

/-! ## Z85 round trip -/

theorem z85CharVal_z85Char (n : Nat) (h : n < 85) : z85CharVal (z85Char n) = some n := by
  interval_cases n <;> rfl

theorem z85DecodeChunk_encode (v : Nat) (h : v < 4294967296) :
    z85DecodeChunk (z85Char (v / 52200625)) (z85Char (v / 614125 % 85))
      (z85Char (v / 7225 % 85)) (z85Char (v / 85 % 85)) (z85Char (v % 85)) = some v := by
  rw [z85DecodeChunk, z85CharVal_z85Char _ (by omega), Option.some_bind,
    z85CharVal_z85Char _ (by omega), Option.some_bind,
    z85CharVal_z85Char _ (by omega), Option.some_bind,
    z85CharVal_z85Char _ (by omega), Option.some_bind,
    z85CharVal_z85Char _ (by omega), Option.some_bind]
  have harith : (((v / 52200625 * 85 + v / 614125 % 85) * 85 + v / 7225 % 85) * 85
      + v / 85 % 85) * 85 + v % 85 = v := by omega
  simp only [harith, if_pos h]

theorem z85DecodeGroups_encode : ∀ (bs : List Nat), (∀ b ∈ bs, b < 256) →
    bs.length % 4 = 0 → z85DecodeGroups (z85EncodeGroups bs) = some bs
  | [], _, _ => rfl
  | [_], _, h => by simp at h
  | [_, _], _, h => by simp at h
  | [_, _, _], _, h => by simp at h
  | b1 :: b2 :: b3 :: b4 :: rest, hb, hlen => by
    have h1 : b1 < 256 := hb _ (by simp)
    have h2 : b2 < 256 := hb _ (by simp)
    have h3 : b3 < 256 := hb _ (by simp)
    have h4 : b4 < 256 := hb _ (by simp)
    have hv : ((b1 * 256 + b2) * 256 + b3) * 256 + b4 < 4294967296 := by omega
    have hrest := z85DecodeGroups_encode rest (fun b hbm => hb b (by simp [hbm]))
      (by simp at hlen ⊢; omega)
    rw [z85EncodeGroups, z85EncodeChunk, List.cons_append, List.cons_append,
      List.cons_append, List.cons_append, List.singleton_append, z85DecodeGroups,
      z85DecodeChunk_encode _ hv, Option.some_bind, hrest]
    have e1 : (((b1 * 256 + b2) * 256 + b3) * 256 + b4) / 16777216 = b1 := by omega
    have e2 : (((b1 * 256 + b2) * 256 + b3) * 256 + b4) / 65536 % 256 = b2 := by omega
    have e3 : (((b1 * 256 + b2) * 256 + b3) * 256 + b4) / 256 % 256 = b3 := by omega
    have e4 : (((b1 * 256 + b2) * 256 + b3) * 256 + b4) % 256 = b4 := by omega
    simp only [e1, e2, e3, e4]
    rfl

theorem z85EncodeGroups_length : ∀ (bs : List Nat), bs.length % 4 = 0 →
    (z85EncodeGroups bs).length = bs.length / 4 * 5
  | [], _ => rfl
  | [_], h => by simp at h
  | [_, _], h => by simp at h
  | [_, _, _], h => by simp at h
  | b1 :: b2 :: b3 :: b4 :: rest, hlen => by
    have hrest := z85EncodeGroups_length rest (by simp at hlen ⊢; omega)
    rw [z85EncodeGroups, List.length_append, hrest]
    simp [z85EncodeChunk]
    omega

theorem z85Decode_encode (bs : List Nat) (hb : ∀ b ∈ bs, b < 256) :
    z85Decode (z85Encode bs) = some bs := by
  by_cases hr : bs.length % 4 = 0
  · rw [z85Encode, if_pos hr, z85Decode,
      if_pos (by rw [z85EncodeGroups_length bs hr]; omega)]
    exact z85DecodeGroups_encode bs hb hr
  · set r := bs.length % 4 with hrdef
    have hr13 : 1 ≤ r ∧ r ≤ 3 := by omega
    set padded := bs ++ List.replicate (4 - r) 0 with hpadded
    have hpadlen : padded.length = bs.length + (4 - r) := by
      rw [hpadded, List.length_append, List.length_replicate]
    have hpadmod : padded.length % 4 = 0 := by omega
    have hpadbytes : ∀ b ∈ padded, b < 256 := by
      intro b hbm
      rw [hpadded, List.mem_append] at hbm
      rcases hbm with h | h
      · exact hb b h
      · have := List.eq_of_mem_replicate h
        omega
    have hgl : (z85EncodeGroups padded).length = padded.length / 4 * 5 :=
      z85EncodeGroups_length padded hpadmod
    have henc : z85Encode bs = z85EncodeGroups padded ++ [z85Char (4 - r)] := by
      rw [z85Encode, if_neg hr]
    have hlen5 : (z85Encode bs).length % 5 = 1 ∧ 6 ≤ (z85Encode bs).length := by
      rw [henc, List.length_append]
      simp only [List.length_cons, List.length_nil]
      constructor
      · omega
      · have : 4 ≤ padded.length := by omega
        have : 1 ≤ padded.length / 4 := by omega
        omega
    rw [z85Decode, if_neg (by omega), if_pos hlen5]
    have hlast : (z85Encode bs).getLastD '0' = z85Char (4 - r) := by
      rw [henc]
      rw [List.getLastD_eq_getLast?, List.getLast?_append]
      rfl
    have hdroplast : (z85Encode bs).dropLast = z85EncodeGroups padded := by
      rw [henc, List.dropLast_concat]
    rw [hlast, z85CharVal_z85Char _ (by omega), Option.some_bind, if_pos (by omega),
      hdroplast, z85DecodeGroups_encode padded hpadbytes hpadmod, Option.some_bind,
      if_pos (by omega)]
    have htake : padded.take (padded.length - (4 - r)) = bs := by
      rw [hpadded]
      have : (bs ++ List.replicate (4 - r) 0).length - (4 - r) = bs.length := by
        rw [List.length_append, List.length_replicate]
        omega
      rw [this]
      exact List.take_left bs _
    rw [htake]

theorem z85Encode_length_mult4 (bs : List Nat) (h : bs.length % 4 = 0) :
    (z85Encode bs).length = bs.length / 4 * 5 := by
  rw [z85Encode, if_pos h]
  exact z85EncodeGroups_length bs h

theorem z85Char_ne_newline (n : Nat) : ¬ z85Char n = '\n' := by
  by_cases h : n < z85Alphabet.length
  · rw [z85Char, List.getD_eq_getElem _ _ h]
    have hall : ∀ c ∈ z85Alphabet, ¬ c = '\n' := by decide
    exact hall _ (List.getElem_mem h)
  · rw [z85Char, List.getD_eq_default _ _ (by omega)]
    decide

theorem z85EncodeGroups_mem : ∀ (bs : List Nat), ∀ c ∈ z85EncodeGroups bs, ∃ n, c = z85Char n
  | [], c, hc => by simp [z85EncodeGroups] at hc
  | [_], c, hc => by simp [z85EncodeGroups] at hc
  | [_, _], c, hc => by simp [z85EncodeGroups] at hc
  | [_, _, _], c, hc => by simp [z85EncodeGroups] at hc
  | b1 :: b2 :: b3 :: b4 :: rest, c, hc => by
    rw [z85EncodeGroups, List.mem_append] at hc
    rcases hc with h | h
    · simp only [z85EncodeChunk, List.mem_cons, List.not_mem_nil, or_false] at h
      rcases h with rfl | rfl | rfl | rfl | rfl <;> exact ⟨_, rfl⟩
    · exact z85EncodeGroups_mem rest c h

theorem z85Encode_ne_newline (bs : List Nat) : ∀ c ∈ z85Encode bs, ¬ c = '\n' := by
  intro c hc
  rw [z85Encode] at hc
  split_ifs at hc with h
  · obtain ⟨n, rfl⟩ := z85EncodeGroups_mem _ c hc
    exact z85Char_ne_newline n
  · rw [List.mem_append] at hc
    rcases hc with h' | h'
    · obtain ⟨n, rfl⟩ := z85EncodeGroups_mem _ c h'
      exact z85Char_ne_newline n
    · simp only [List.mem_cons, List.not_mem_nil, or_false] at h'
      subst h'
      exact z85Char_ne_newline _

/-! ## Borsh round trips -/

theorem deserBytesN_append (xs r : List Nat) : deserBytesN xs.length (xs ++ r) = some (xs, r) := by
  rw [deserBytesN, if_pos (by simp), List.take_left, List.drop_left]

theorem deserScalar_ser (s : Scalar) (r : List Nat) :
    deserScalar (serScalar s ++ r) = some (s, r) := by
  have h32 : (serScalar s).length = 32 := by simp [serScalar]
  have happ := deserBytesN_append (serScalar s) r
  rw [h32] at happ
  rw [deserScalar, happ, Option.some_bind]
  have hval : s.val < gOrder := ZMod.val_lt s
  have hfle : fromLE (serScalar s) = s.val := by
    rw [serScalar]
    exact fromLE_leBytes 32 s.val (lt_trans hval (by norm_num [gOrder]))
  rw [hfle, if_pos hval, ZMod.natCast_zmod_val]

theorem decompressBytes_compress (p : RistrettoPoint) :
    decompressBytes p.compress = some p := by
  have hval : p.val < gOrder := ZMod.val_lt p
  have hfle : fromLE p.compress = p.val := by
    rw [RistrettoPoint.compress]
    exact fromLE_leBytes 32 p.val (lt_trans hval (by norm_num [gOrder]))
  have hcond : p.compress.length = 32 ∧ fromLE p.compress < gOrder := by
    refine ⟨by simp [RistrettoPoint.compress], ?_⟩
    rw [hfle]
    exact hval
  rw [decompressBytes, if_pos hcond, hfle, ZMod.natCast_zmod_val]

theorem deserPoint_ser (p : RistrettoPoint) (r : List Nat) :
    deserPoint (serPoint p ++ r) = some (p, r) := by
  have h32 : (serPoint p).length = 32 := by simp [serPoint, RistrettoPoint.compress]
  have happ := deserBytesN_append (serPoint p) r
  rw [h32] at happ
  rw [deserPoint, happ, Option.some_bind]
  rw [serPoint, decompressBytes_compress]
  rfl

theorem deserList_ser {α : Type} (deserA : List Nat → Option (α × List Nat))
    (serA : α → List Nat) (helem : ∀ (x : α) (r : List Nat), deserA (serA x ++ r) = some (x, r)) :
    ∀ (xs : List α) (r : List Nat),
      deserList deserA xs.length ((xs.map serA).flatten ++ r) = some (xs, r) := by
  intro xs
  induction xs with
  | nil => intro r; rfl
  | cons x t ih =>
    intro r
    have hflat : ((x :: t).map serA).flatten = serA x ++ (t.map serA).flatten := by simp
    rw [hflat, List.append_assoc]
    show deserList deserA (t.length + 1) _ = _
    rw [deserList, helem, Option.some_bind, ih r]
    rfl

theorem deserVec_ser {α : Type} (deserA : List Nat → Option (α × List Nat))
    (serA : α → List Nat) (helem : ∀ (x : α) (r : List Nat), deserA (serA x ++ r) = some (x, r))
    (xs : List α) (hlen : xs.length < 4294967296) (r : List Nat) :
    deserVec deserA (serVec serA xs ++ r) = some (xs, r) := by
  have h4 : (serU32 xs.length).length = 4 := by simp [serU32]
  rw [deserVec, serVec, List.append_assoc]
  have happ := deserBytesN_append (serU32 xs.length) ((xs.map serA).flatten ++ r)
  rw [h4] at happ
  rw [happ, Option.some_bind]
  have hfle : fromLE (serU32 xs.length) = xs.length := by
    rw [serU32]
    exact fromLE_leBytes 4 xs.length (by norm_num; omega)
  rw [hfle]
  exact deserList_ser deserA serA helem xs r

theorem deserString_ser (s : List Char) (hlen : (utf8Encode s).length < 4294967296)
    (r : List Nat) : deserString (serString s ++ r) = some (s, r) := by
  have h4 : (serU32 (utf8Encode s).length).length = 4 := by simp [serU32]
  rw [deserString, serString, List.append_assoc]
  have happ := deserBytesN_append (serU32 (utf8Encode s).length) (utf8Encode s ++ r)
  rw [h4] at happ
  rw [happ, Option.some_bind]
  have hfle : fromLE (serU32 (utf8Encode s).length) = (utf8Encode s).length := by
    rw [serU32]
    exact fromLE_leBytes 4 _ (by norm_num; omega)
  rw [hfle, deserBytesN_append (utf8Encode s) r, Option.some_bind, utf8Decode_encode]
  rfl

theorem boringAscii_from_bytes_as_bytes (e : BoringAscii) :
    BoringAscii.from_bytes e.as_bytes = some e := by
  have hok : ∀ b ∈ e.as_bytes, boringByte b := by
    intro b hb
    simp only [BoringAscii.as_bytes, List.mem_map] at hb
    obtain ⟨c, hc, rfl⟩ := hb
    exact e.ok c hc
  rw [BoringAscii.from_bytes, dif_pos hok]
  have hchars : e.as_bytes.map Char.ofNat = e.chars := by
    rw [BoringAscii.as_bytes, List.map_map]
    have : ∀ c ∈ e.chars, (Char.ofNat ∘ Char.toNat) c = id c := by
      intro c _
      simp [Char.ofNat_toNat]
    rw [List.map_congr_left this, List.map_id]
  cases e with
  | mk chars ok =>
    simp only at hchars
    simp [hchars]

theorem deserBoring_ser (e : BoringAscii) (hlen : e.chars.length < 4294967296)
    (r : List Nat) : deserBoring (serBoring e ++ r) = some (e, r) := by
  have hblen : e.as_bytes.length = e.chars.length := by simp [BoringAscii.as_bytes]
  have h4 : (serU32 e.as_bytes.length).length = 4 := by simp [serU32]
  rw [deserBoring, serBoring, List.append_assoc]
  have happ := deserBytesN_append (serU32 e.as_bytes.length) (e.as_bytes ++ r)
  rw [h4] at happ
  rw [happ, Option.some_bind]
  have hfle : fromLE (serU32 e.as_bytes.length) = e.as_bytes.length := by
    rw [serU32]
    exact fromLE_leBytes 4 _ (by rw [hblen]; norm_num; omega)
  rw [hfle, deserBytesN_append e.as_bytes r, Option.some_bind,
    boringAscii_from_bytes_as_bytes]
  rfl

theorem identity_new_self (id : Identity) : Identity.new id.name id.email.chars = some id := by
  rw [Identity.new]
  have hany : ¬ id.name.any isControlChar = true := by
    rw [List.any_eq_true]
    rintro ⟨c, hc, hcc⟩
    rw [id.name_ok c hc] at hcc
    exact Bool.false_ne_true hcc
  rw [dif_neg hany, BoringAscii.from_str, dif_pos id.email.ok]
  cases id with
  | mk name email name_ok =>
    cases email with
    | mk chars ok => rfl

theorem deserIdentity_ser (id : Identity) (hname : (utf8Encode id.name).length < 4294967296)
    (hemail : id.email.chars.length < 4294967296) (r : List Nat) :
    deserIdentity (serIdentity id ++ r) = some (id, r) := by
  rw [deserIdentity, serIdentity, List.append_assoc, deserString_ser id.name hname,
    Option.some_bind, deserBoring_ser id.email hemail, Option.some_bind,
    identity_new_self]
  rfl

theorem deserVersion_ser (v : ZebraVersion) (r : List Nat) :
    deserVersion (serVersion v ++ r) = some (v, r) := by
  cases v
  rfl

theorem deserPointScalar_ser (ps : RistrettoPoint × Scalar) (r : List Nat) :
    deserPointScalar ((serPoint ps.1 ++ serScalar ps.2) ++ r) = some (ps, r) := by
  rw [deserPointScalar, List.append_assoc, deserPoint_ser, Option.some_bind,
    deserScalar_ser]
  rfl

theorem deserSignature_ser (sig : Signature)
    (hlen : sig.ring_responses.length < 4294967296) (r : List Nat) :
    deserSignature (serSignature sig ++ r) = some (sig, r) := by
  rw [deserSignature, serSignature, List.append_assoc, deserScalar_ser,
    Option.some_bind,
    deserVec_ser deserPointScalar (fun pr => serPoint pr.1 ++ serScalar pr.2)
      deserPointScalar_ser sig.ring_responses hlen r]
  rfl

theorem deserPublicKey_ser (k : PublicKey) (hk : wireSizeOk k) (r : List Nat) :
    deserPublicKey (serPublicKey k ++ r) = some (k, r) := by
  obtain ⟨h1, h2, h3⟩ := hk
  rw [deserPublicKey, serPublicKey, List.append_assoc, List.append_assoc,
    List.append_assoc, deserIdentity_ser k.holder h1 h2, Option.some_bind,
    deserVersion_ser, Option.some_bind, deserPoint_ser, Option.some_bind,
    deserSignature_ser k.holder_attestation h3]
  rfl

theorem deserPkScalar_ser (ks : PublicKey × Scalar) (hk : wireSizeOk ks.1) (r : List Nat) :
    deserPkScalar (serPkScalar ks ++ r) = some (ks, r) := by
  rw [deserPkScalar, serPkScalar, List.append_assoc, deserPublicKey_ser ks.1 hk,
    Option.some_bind, deserScalar_ser]
  rfl

theorem deserChallengeRing_ser (c : Scalar) (ring : List (PublicKey × Scalar))
    (hring : ∀ ks ∈ ring, wireSizeOk ks.1) (hlen : ring.length < 4294967296)
    (r : List Nat) :
    deserChallengeRing (serChallengeRing c ring ++ r) = some ((c, ring), r) := by
  rw [deserChallengeRing, serChallengeRing, List.append_assoc, deserScalar_ser,
    Option.some_bind]
  have hvec : deserVec deserPkScalar (serVec serPkScalar ring ++ r) = some (ring, r) := by
    have h4 : (serU32 ring.length).length = 4 := by simp [serU32]
    rw [deserVec, serVec, List.append_assoc]
    have happ := deserBytesN_append (serU32 ring.length) ((ring.map serPkScalar).flatten ++ r)
    rw [h4] at happ
    rw [happ, Option.some_bind]
    have hfle : fromLE (serU32 ring.length) = ring.length := by
      rw [serU32]
      exact fromLE_leBytes 4 _ (by norm_num; omega)
    rw [hfle]
    clear hfle happ h4 hlen
    induction ring with
    | nil => rfl
    | cons x t ih =>
      have hflat : ((x :: t).map serPkScalar).flatten
          = serPkScalar x ++ (t.map serPkScalar).flatten := by simp
      rw [hflat, List.append_assoc]
      show deserList deserPkScalar (t.length + 1) _ = _
      rw [deserList, deserPkScalar_ser x (hring x (by simp)), Option.some_bind,
        ih (fun ks hks => hring ks (by simp [hks]))]
      rfl
  rw [hvec]
  rfl

/-! ## Byte bounds of the serializers -/

theorem serScalar_lt (s : Scalar) : ∀ b ∈ serScalar s, b < 256 := leBytes_lt 32 _

theorem serU32_lt (n : Nat) : ∀ b ∈ serU32 n, b < 256 := leBytes_lt 4 _

theorem serPoint_lt (p : RistrettoPoint) : ∀ b ∈ serPoint p, b < 256 := leBytes_lt 32 _

theorem serSignature_lt (sig : Signature) : ∀ b ∈ serSignature sig, b < 256 := by
  intro b hb
  rw [serSignature, List.mem_append] at hb
  rcases hb with h | h
  · exact serScalar_lt _ b h
  · rw [serVec, List.mem_append] at h
    rcases h with h | h
    · exact serU32_lt _ b h
    · simp only [List.mem_flatten, List.mem_map] at h
      obtain ⟨l, ⟨pr, _, rfl⟩, hbl⟩ := h
      rw [List.mem_append] at hbl
      rcases hbl with h | h
      · exact serPoint_lt _ b h
      · exact serScalar_lt _ b h

theorem serBoring_lt (e : BoringAscii) : ∀ b ∈ serBoring e, b < 256 := by
  intro b hb
  rw [serBoring, List.mem_append] at hb
  rcases hb with h | h
  · exact serU32_lt _ b h
  · simp only [BoringAscii.as_bytes, List.mem_map] at h
    obtain ⟨c, hc, rfl⟩ := h
    have := e.ok c hc
    rcases this with ⟨_, h2⟩
    omega

theorem serString_lt (s : List Char) : ∀ b ∈ serString s, b < 256 := by
  intro b hb
  rw [serString, List.mem_append] at hb
  rcases hb with h | h
  · exact serU32_lt _ b h
  · exact utf8Encode_lt s b h

theorem serIdentity_lt (id : Identity) : ∀ b ∈ serIdentity id, b < 256 := by
  intro b hb
  rw [serIdentity, List.mem_append] at hb
  rcases hb with h | h
  · exact serString_lt _ b h
  · exact serBoring_lt _ b h

theorem serVersion_lt (v : ZebraVersion) : ∀ b ∈ serVersion v, b < 256 := by
  cases v
  intro b hb
  simp only [serVersion, List.mem_cons, List.not_mem_nil, or_false] at hb
  omega

theorem serPublicKey_lt (k : PublicKey) : ∀ b ∈ serPublicKey k, b < 256 := by
  intro b hb
  rw [serPublicKey, List.mem_append] at hb
  rcases hb with hb | h
  · rw [List.mem_append] at hb
    rcases hb with hb | h
    · rw [List.mem_append] at hb
      rcases hb with h | h
      · exact serIdentity_lt _ b h
      · exact serVersion_lt _ b h
    · exact serPoint_lt _ b h
  · exact serSignature_lt _ b h

theorem serChallengeRing_lt (c : Scalar) (ring : List (PublicKey × Scalar)) :
    ∀ b ∈ serChallengeRing c ring, b < 256 := by
  intro b hb
  rw [serChallengeRing, List.mem_append] at hb
  rcases hb with h | h
  · exact serScalar_lt _ b h
  · rw [serVec, List.mem_append] at h
    rcases h with h | h
    · exact serU32_lt _ b h
    · simp only [List.mem_flatten, List.mem_map] at h
      obtain ⟨l, ⟨ks, _, rfl⟩, hbl⟩ := h
      rw [serPkScalar, List.mem_append] at hbl
      rcases hbl with h | h
      · exact serPublicKey_lt _ b h
      · exact serScalar_lt _ b h

/-! ## Structure of a validating attestation -/

theorem validate_attestation_parts (k : PublicKey)
    (h : k.validate_attestation = true) :
    k.holder_attestation.ring_responses.length = 1 ∧
      (k.holder_attestation.ring_responses.getD 0 (0, 0)).1 = k.keypoint ∧
      k.holder_attestation.verify (k.holder.bytes_for_attestation k.keypoint) = true := by
  rw [PublicKey.validate_attestation] at h
  split_ifs at h with h1 h2
  · exact ⟨h1, h2, h⟩

theorem serSignature_length_one (sig : Signature) (h : sig.ring_responses.length = 1) :
    (serSignature sig).length = 100 := by
  obtain ⟨pr, hpr⟩ : ∃ pr, sig.ring_responses = [pr] := by
    cases hrr : sig.ring_responses with
    | nil => rw [hrr] at h; simp at h
    | cons p t =>
      cases t with
      | nil => exact ⟨p, rfl⟩
      | cons q t' => rw [hrr] at h; simp at h
  rw [serSignature, hpr]
  simp [serVec, serU32, serScalar, serPoint, RistrettoPoint.compress]

/-! ## The unique name/email split of the public-key line -/

theorem splitNameEmail_append (name email : List Char)
    (hemail : ∀ c ∈ email, boringByte c.toNat) :
    splitNameEmail (name ++ ' ' :: '<' :: email) = some (name, email) := by
  have hrev : (name ++ ' ' :: '<' :: email).reverse
      = email.reverse ++ '<' :: ' ' :: name.reverse := by
    simp
  have htw : (email.reverse ++ '<' :: ' ' :: name.reverse).takeWhile
      (fun c => decide (boringByte c.toNat)) = email.reverse ++ ['<'] := by
    rw [List.takeWhile_append_of_pos]
    · congr 1
    · intro c hc
      simp only [decide_eq_true_eq]
      exact hemail c (List.mem_reverse.1 hc)
  have hsfx : ((name ++ ' ' :: '<' :: email).reverse.takeWhile
      (fun c => decide (boringByte c.toNat))).reverse = '<' :: email := by
    rw [hrev, htw]
    simp
  rw [splitNameEmail]
  simp only [hsfx]
  have hflen : (name ++ ' ' :: '<' :: email).length = name.length + email.length + 2 := by
    simp
    omega
  have hcond : (name ++ ' ' :: '<' :: email).length ≥ ('<' :: email).length + 1 ∧
      (name ++ ' ' :: '<' :: email).getD
        ((name ++ ' ' :: '<' :: email).length - ('<' :: email).length - 1) '!' = ' ' := by
    constructor
    · simp only [List.length_cons] at hflen ⊢
      omega
    · have hidx : (name ++ ' ' :: '<' :: email).length - ('<' :: email).length - 1
          = name.length := by
        simp only [List.length_cons] at hflen ⊢
        omega
      rw [hidx, List.getD_append_right _ _ _ _ (le_refl _)]
      simp
  rw [if_pos hcond]
  have hidx : (name ++ ' ' :: '<' :: email).length - ('<' :: email).length - 1
      = name.length := by
    simp only [List.length_cons] at hflen ⊢
    omega
  rw [hidx, List.take_left name _]

/-! ## Public-key ASCII round trip -/

theorem pkFixedMid_length : pkFixedMid.length = 23 := rfl

/-- C3: for every PublicKey whose attestation validates, parsing the
single-line ASCII encoding produced by the formatter returns that same key:
`PublicKey::parse (format k) = Ok k`. -/
theorem publicKey_fromChars_toChars (k : PublicKey)
    (hval : k.validate_attestation = true) :
    PublicKey.fromChars (PublicKey.toChars k) = some k := by
  obtain ⟨hlen1, hpt, hver⟩ := validate_attestation_parts k hval
  set h64 := hexEncodeUpper k.keypoint.compress with hh64
  set h200 := hexEncodeUpper (serSignature k.holder_attestation) with hh200
  have hkclen : k.keypoint.compress.length = 32 := by simp [RistrettoPoint.compress]
  have h64len : h64.length = 64 := by rw [hh64, hexEncodeUpper_length, hkclen]
  have hsiglen : (serSignature k.holder_attestation).length = 100 :=
    serSignature_length_one _ hlen1
  have h200len : h200.length = 200 := by rw [hh200, hexEncodeUpper_length, hsiglen]
  have hvtoChars : k.version.toChars = ZEBRA_ONE_BETA := by
    cases hv : k.version
    rfl
  set A := k.holder.name ++ ' ' :: '<' :: k.holder.email.chars with hA
  set B := (((pkFixedMid ++ h64) ++ [' ']) ++ h200) ++ [']'] with hB
  have hBlen : B.length = 289 := by
    rw [hB]
    simp only [List.length_append, pkFixedMid_length, h64len, h200len,
      List.length_cons, List.length_nil]
  have hAlen : A.length = k.holder.name.length + k.holder.email.chars.length + 2 := by
    rw [hA]
    simp
    omega
  have htc : PublicKey.toChars k = '[' :: (A ++ B) := by
    rw [PublicKey.toChars, hvtoChars, hA, hB, pkFixedMid]
    simp [List.append_assoc]
  rw [htc, PublicKey.fromChars]
  have htlen : (A ++ B).length = A.length + 289 := by
    rw [List.length_append, hBlen]
  rw [if_neg (by omega)]
  have hfront : (A ++ B).take ((A ++ B).length - 289) = A := by
    have : (A ++ B).length - 289 = A.length := by omega
    rw [this, List.take_left A B]
  have hback : (A ++ B).drop ((A ++ B).length - 289) = B := by
    have : (A ++ B).length - 289 = A.length := by omega
    rw [this, List.drop_left A B]
  rw [hfront, hback]
  have htake23 : B.take 23 = pkFixedMid := by
    rw [hB]
    have hre : (((pkFixedMid ++ h64) ++ [' ']) ++ h200) ++ [']']
        = pkFixedMid ++ (h64 ++ ([' '] ++ (h200 ++ [']']))) := by
      simp [List.append_assoc]
    rw [hre, ← pkFixedMid_length, List.take_left pkFixedMid _]
  have hdrop23 : B.drop 23 = h64 ++ ([' '] ++ (h200 ++ [']'])) := by
    rw [hB]
    have hre : (((pkFixedMid ++ h64) ++ [' ']) ++ h200) ++ [']']
        = pkFixedMid ++ (h64 ++ ([' '] ++ (h200 ++ [']']))) := by
      simp [List.append_assoc]
    rw [hre, ← pkFixedMid_length, List.drop_left pkFixedMid _]
  have hh64' : (B.drop 23).take 64 = h64 := by
    rw [hdrop23, ← h64len, List.take_left h64 _]
  have hgetD87 : B.getD 87 '!' = ' ' := by
    have hre : B = (pkFixedMid ++ h64) ++ ([' '] ++ (h200 ++ [']'])) := by
      rw [hB]
      simp [List.append_assoc]
    rw [hre, List.getD_append_right _ _ _ _
      (by rw [List.length_append, pkFixedMid_length, h64len])]
    rw [List.length_append, pkFixedMid_length, h64len]
    rfl
  have hdrop88 : B.drop 88 = h200 ++ [']'] := by
    have hre : B = ((pkFixedMid ++ h64) ++ [' ']) ++ (h200 ++ [']']) := by
      rw [hB]
      simp [List.append_assoc]
    have hplen : ((pkFixedMid ++ h64) ++ [' ']).length = 88 := by
      simp [pkFixedMid_length, h64len]
    rw [hre, ← hplen, List.drop_left _ _]
  have hh200' : (B.drop 88).take 200 = h200 := by
    rw [hdrop88, ← h200len, List.take_left h200 _]
  have hgetD288 : B.getD 288 '!' = ']' := by
    have hre : B = (((pkFixedMid ++ h64) ++ [' ']) ++ h200) ++ [']'] := hB
    have hplen : (((pkFixedMid ++ h64) ++ [' ']) ++ h200).length = 288 := by
      simp [pkFixedMid_length, h64len, h200len]
    rw [hre, List.getD_append_right _ _ _ _ (by rw [hplen]), hplen]
    rfl
  have hcond : B.take 23 = pkFixedMid ∧ ((B.drop 23).take 64).all isHexUpperChar = true ∧
      B.getD 87 '!' = ' ' ∧ ((B.drop 88).take 200).all isHexUpperChar = true ∧
      B.getD 288 '!' = ']' := by
    refine ⟨htake23, ?_, hgetD87, ?_, hgetD288⟩
    · rw [hh64', hh64]
      exact hexEncodeUpper_all_hex _ (leBytes_lt 32 _)
    · rw [hh200', hh200]
      exact hexEncodeUpper_all_hex _ (serSignature_lt _)
  rw [if_pos hcond]
  rw [hA, splitNameEmail_append _ _ k.holder.email.ok, Option.some_bind]
  have hnonl : (k.holder.name.any (fun c => decide (c = '\n'))) = false := by
    rw [List.any_eq_false]
    intro c hc
    simp only [decide_eq_true_eq]
    intro hceq
    have := k.holder.name_ok c hc
    rw [hceq] at this
    exact absurd this (by decide)
  rw [if_neg (by rw [hnonl]; exact Bool.false_ne_true)]
  rw [identity_new_self, Option.some_bind, hh64']
  have hdk : hexDecode (hexEncodeUpper k.keypoint.compress) = some k.keypoint.compress :=
    hexDecode_encode _ (fun b hb => leBytes_lt 32 _ b hb)
  have hda : hexDecode (hexEncodeUpper (serSignature k.holder_attestation))
      = some (serSignature k.holder_attestation) :=
    hexDecode_encode _ (serSignature_lt _)
  rw [hh64, hdk, Option.some_bind, decompressBytes_compress, Option.some_bind,
    hh200', hh200, hda, Option.some_bind]
  have hdsig : deserSignature (serSignature k.holder_attestation)
      = some (k.holder_attestation, []) := by
    have := deserSignature_ser k.holder_attestation (by omega) []
    rwa [List.append_nil] at this
  rw [hdsig, Option.some_bind]
  have hres : PublicKey.mk k.holder ZebraVersion.ZebraOneBeta k.keypoint
      k.holder_attestation = k := by
    cases k with
    | mk holder version keypoint att =>
      cases version
      rfl
  rw [hres, if_pos hval]

/-! ## Lines: `split('\n')` and `join("\n")` -/

theorem splitNl_cons (c : Char) (rest : List Char) :
    splitNl (c :: rest) =
      if c = '\n' then [] :: splitNl rest else consHead c (splitNl rest) := rfl

theorem joinNl_cons_cons (a b : List Char) (t : List (List Char)) :
    joinNl (a :: b :: t) = a ++ '\n' :: joinNl (b :: t) := rfl

theorem splitNl_ne_nil : ∀ (s : List Char), splitNl s ≠ []
  | [] => by simp [splitNl]
  | c :: rest => by
    rw [splitNl_cons]
    by_cases h : c = '\n'
    · simp [h]
    · rw [if_neg h]
      cases hr : splitNl rest <;> simp [consHead]

theorem splitNl_append_nl (x y : List Char) :
    splitNl (x ++ '\n' :: y) = splitNl x ++ splitNl y := by
  induction x with
  | nil =>
    rw [List.nil_append, splitNl_cons, if_pos rfl]
    rfl
  | cons c x ih =>
    rw [List.cons_append, splitNl_cons, splitNl_cons]
    by_cases h : c = '\n'
    · rw [if_pos h, if_pos h, ih]
      rfl
    · rw [if_neg h, if_neg h, ih]
      cases hx : splitNl x with
      | nil => exact absurd hx (splitNl_ne_nil x)
      | cons hd tl => rfl

theorem splitNl_no_nl (x : List Char) (hx : '\n' ∉ x) : splitNl x = [x] := by
  induction x with
  | nil => rfl
  | cons c t ih =>
    have hc : ¬ c = '\n' := fun h => hx (h ▸ List.mem_cons_self c t)
    rw [splitNl_cons, if_neg hc, ih (fun h => hx (List.mem_cons_of_mem c h))]
    rfl

theorem joinNl_splitNl (s : List Char) : joinNl (splitNl s) = s := by
  induction s with
  | nil => rfl
  | cons c t ih =>
    rw [splitNl_cons]
    by_cases h : c = '\n'
    · rw [if_pos h]
      cases ht : splitNl t with
      | nil => exact absurd ht (splitNl_ne_nil t)
      | cons x u =>
        rw [ht] at ih
        rw [joinNl_cons_cons, List.nil_append, ih, h]
    · rw [if_neg h]
      cases ht : splitNl t with
      | nil => exact absurd ht (splitNl_ne_nil t)
      | cons x u =>
        rw [ht] at ih
        show joinNl ((c :: x) :: u) = c :: t
        cases u with
        | nil =>
          show c :: x = c :: t
          rw [show x = t from ih]
        | cons v w =>
          rw [joinNl_cons_cons] at ih ⊢
          rw [List.cons_append, ih]

theorem splitNl_joinNl_flat : ∀ (ps : List (List Char)), ps ≠ [] →
    splitNl (joinNl ps) = ps.flatMap splitNl
  | [], h => absurd rfl h
  | [p], _ => by simp [joinNl, List.flatMap]
  | p :: q :: rest, _ => by
    have ih := splitNl_joinNl_flat (q :: rest) (by simp)
    rw [joinNl_cons_cons, splitNl_append_nl, ih]
    simp [List.flatMap]

/-! ## `str::trim` -/

theorem trimChars_eq_self (s : List Char)
    (h1 : ∀ c, s.head? = some c → rustWhitespace c = false)
    (h2 : ∀ c, s.getLast? = some c → rustWhitespace c = false) :
    trimChars s = s := by
  cases s with
  | nil => rfl
  | cons a t =>
    rw [trimChars, List.dropWhile_cons, if_neg (by rw [h1 a rfl]; simp)]
    cases hrev : (a :: t).reverse with
    | nil =>
      have := congrArg List.length hrev
      simp at this
    | cons b u =>
      have hb : (a :: t).getLast? = some b := by
        rw [← List.head?_reverse, hrev]
        rfl
      rw [List.dropWhile_cons, if_neg (by rw [h2 b hb]; simp), ← hrev,
        List.reverse_reverse]

theorem head?_dropWhile_not (p : Char → Bool) (l : List Char) :
    ∀ c, (l.dropWhile p).head? = some c → p c = false := by
  induction l with
  | nil => intro c hc; simp [List.dropWhile] at hc
  | cons a t ih =>
    intro c hc
    rw [List.dropWhile_cons] at hc
    by_cases h : p a = true
    · rw [if_pos h] at hc
      exact ih c hc
    · rw [if_neg h] at hc
      simp only [List.head?_cons, Option.some.injEq] at hc
      rw [← hc]
      simpa using h

theorem getLast?_dropWhile (p : Char → Bool) (l : List Char) :
    ∀ c, (l.dropWhile p).getLast? = some c → l.getLast? = some c := by
  intro c hc
  obtain ⟨pre, hpre⟩ := @List.dropWhile_suffix _ l p
  rw [← hpre, List.getLast?_append, hc]
  rfl

theorem trimChars_idem (s : List Char) : trimChars (trimChars s) = trimChars s := by
  apply trimChars_eq_self
  · intro c hc
    rw [trimChars, List.head?_reverse] at hc
    have h1 : (s.dropWhile rustWhitespace).reverse.getLast? = some c :=
      getLast?_dropWhile _ _ c hc
    rw [List.getLast?_reverse] at h1
    exact head?_dropWhile_not rustWhitespace s c h1
  · intro c hc
    rw [trimChars, List.getLast?_reverse] at hc
    exact head?_dropWhile_not rustWhitespace _ c hc

/-! ## No identity line contains a newline -/

theorem mem_insertIdx_or {α : Type} (a x : α) :
    ∀ (n : Nat) (l : List α), x ∈ List.insertIdx n a l → x = a ∨ x ∈ l
  | 0, l, h => by
    rw [List.insertIdx_zero] at h
    rcases List.mem_cons.1 h with h | h
    · exact Or.inl h
    · exact Or.inr h
  | n + 1, [], h => by
    rw [List.insertIdx_succ_nil] at h
    exact Or.inr h
  | n + 1, b :: t, h => by
    rw [List.insertIdx_succ_cons] at h
    rcases List.mem_cons.1 h with h | h
    · exact Or.inr (h ▸ List.mem_cons_self b t)
    · rcases mem_insertIdx_or a x n t h with h' | h'
      · exact Or.inl h'
      · exact Or.inr (List.mem_cons_of_mem b h')

theorem fingerprint_ne_newline (k : PublicKey) : '\n' ∉ k.fingerprint := by
  intro hc
  simp only [PublicKey.fingerprint] at hc
  rcases mem_insertIdx_or ' ' '\n' 10 _ hc with h | h
  · exact absurd h (by decide)
  rcases mem_insertIdx_or ' ' '\n' 20 _ h with h | h
  · exact absurd h (by decide)
  rcases mem_insertIdx_or ' ' '\n' 30 _ h with h | h
  · exact absurd h (by decide)
  · exact z85Encode_ne_newline _ '\n' h rfl

theorem identityLine_ne_newline (k : PublicKey) : '\n' ∉ identityLine k := by
  intro hc
  rw [identityLine] at hc
  rcases List.mem_append.1 hc with h | h
  · rcases List.mem_append.1 h with h | h
    · rcases List.mem_append.1 h with h | h
      · rcases List.mem_append.1 h with h | h
        · exact absurd (k.holder.name_ok '\n' h) (by decide)
        · exact absurd h (by decide)
      · exact absurd (k.holder.email.ok '\n' h) (by decide)
    · exact absurd h (by decide)
  · exact fingerprint_ne_newline k h

theorem flatMap_splitNl_id : ∀ (l : List (List Char)), (∀ x ∈ l, '\n' ∉ x) →
    l.flatMap splitNl = l
  | [], _ => rfl
  | x :: t, h => by
    rw [List.flatMap_cons, splitNl_no_nl x (h x (by simp)),
      flatMap_splitNl_id t (fun y hy => h y (by simp [hy]))]
    rfl

/-! ## The last line of a joined block -/

theorem joinNl_getLast : ∀ (ps : List (List Char)) (x : List Char), x ≠ [] →
    (joinNl (ps ++ [x])).getLast? = x.getLast?
  | [], _, _ => rfl
  | p :: ps, x, hx => by
    rw [List.cons_append]
    cases hqt : ps ++ [x] with
    | nil => simp at hqt
    | cons q u =>
      rw [joinNl_cons_cons, ← hqt]
      rw [show ('\n' :: joinNl (ps ++ [x])) = ['\n'] ++ joinNl (ps ++ [x]) from rfl]
      rw [← List.append_assoc, List.getLast?_append, joinNl_getLast ps x hx]
      obtain ⟨c, hc⟩ := Option.isSome_iff_exists.1 (List.getLast?_isSome.2 hx)
      rw [hc]
      rfl

/-! ## The formatted signed message is already trimmed -/

theorem signedMessage_toChars_head (m : SignedMessage) :
    (SignedMessage.toChars m).head? = some 'T' := by
  have htc : SignedMessage.toChars m = SIGNED_MESSAGE_FIRST_LINE ++ '\n' ::
      joinNl ([SIGNED_MESSAGE_SECOND_LINE, m.message,
        SIGNED_MESSAGE_INFIX_FIRST_LINE, SIGNED_MESSAGE_INFIX_SECOND_LINE,
        SIGNED_MESSAGE_INFIX_THIRD_LINE, SIGNED_MESSAGE_INFIX_FOURTH_LINE] ++
        (m.ring.map (fun ks => identityLine ks.1) ++
        [[], z85Encode (serChallengeRing m.challenge m.ring), [],
          SIGNED_MESSAGE_SUFFIX_SECOND_LINE])) := rfl
  rw [htc]
  rfl

theorem signedMessage_toChars_getLast (m : SignedMessage) :
    (SignedMessage.toChars m).getLast? = some '.' := by
  have hre : [SIGNED_MESSAGE_FIRST_LINE, SIGNED_MESSAGE_SECOND_LINE, m.message,
        SIGNED_MESSAGE_INFIX_FIRST_LINE, SIGNED_MESSAGE_INFIX_SECOND_LINE,
        SIGNED_MESSAGE_INFIX_THIRD_LINE, SIGNED_MESSAGE_INFIX_FOURTH_LINE] ++
      m.ring.map (fun ks => identityLine ks.1) ++
      [[], z85Encode (serChallengeRing m.challenge m.ring), [],
        SIGNED_MESSAGE_SUFFIX_SECOND_LINE] =
      ([SIGNED_MESSAGE_FIRST_LINE, SIGNED_MESSAGE_SECOND_LINE, m.message,
        SIGNED_MESSAGE_INFIX_FIRST_LINE, SIGNED_MESSAGE_INFIX_SECOND_LINE,
        SIGNED_MESSAGE_INFIX_THIRD_LINE, SIGNED_MESSAGE_INFIX_FOURTH_LINE] ++
      (m.ring.map (fun ks => identityLine ks.1) ++
      [[], z85Encode (serChallengeRing m.challenge m.ring), []])) ++
      [SIGNED_MESSAGE_SUFFIX_SECOND_LINE] := by
    simp [List.append_assoc]
  rw [SignedMessage.toChars, hre, joinNl_getLast _ _ (by decide)]
  rfl

theorem signedMessage_toChars_trim (m : SignedMessage) :
    trimChars (SignedMessage.toChars m) = SignedMessage.toChars m := by
  apply trimChars_eq_self
  · intro c hc
    rw [signedMessage_toChars_head m, Option.some.injEq] at hc
    rw [← hc]
    decide
  · intro c hc
    rw [signedMessage_toChars_getLast m, Option.some.injEq] at hc
    rw [← hc]
    decide

/-! ## The lines of a formatted signed message -/

theorem signedMessage_lines (m : SignedMessage) :
    splitNl (trimChars (SignedMessage.toChars m)) =
      SIGNED_MESSAGE_FIRST_LINE :: SIGNED_MESSAGE_SECOND_LINE ::
        (splitNl m.message ++ (SIGNED_MESSAGE_INFIX_FIRST_LINE ::
          SIGNED_MESSAGE_INFIX_SECOND_LINE :: SIGNED_MESSAGE_INFIX_THIRD_LINE ::
          SIGNED_MESSAGE_INFIX_FOURTH_LINE ::
          (m.ring.map (fun ks => identityLine ks.1) ++
            [[], z85Encode (serChallengeRing m.challenge m.ring), [],
              SIGNED_MESSAGE_SUFFIX_SECOND_LINE]))) := by
  rw [signedMessage_toChars_trim, SignedMessage.toChars,
    splitNl_joinNl_flat _ (by simp), List.flatMap_append, List.flatMap_append]
  rw [show [SIGNED_MESSAGE_FIRST_LINE, SIGNED_MESSAGE_SECOND_LINE, m.message,
      SIGNED_MESSAGE_INFIX_FIRST_LINE, SIGNED_MESSAGE_INFIX_SECOND_LINE,
      SIGNED_MESSAGE_INFIX_THIRD_LINE,
      SIGNED_MESSAGE_INFIX_FOURTH_LINE].flatMap splitNl =
      splitNl SIGNED_MESSAGE_FIRST_LINE ++ (splitNl SIGNED_MESSAGE_SECOND_LINE ++
      (splitNl m.message ++ (splitNl SIGNED_MESSAGE_INFIX_FIRST_LINE ++
      (splitNl SIGNED_MESSAGE_INFIX_SECOND_LINE ++
      (splitNl SIGNED_MESSAGE_INFIX_THIRD_LINE ++
      (splitNl SIGNED_MESSAGE_INFIX_FOURTH_LINE ++ [])))))) from by
      simp [List.flatMap_cons]]
  rw [show [[], z85Encode (serChallengeRing m.challenge m.ring), [],
      SIGNED_MESSAGE_SUFFIX_SECOND_LINE].flatMap splitNl =
      splitNl [] ++ (splitNl (z85Encode (serChallengeRing m.challenge m.ring)) ++
      (splitNl [] ++ (splitNl SIGNED_MESSAGE_SUFFIX_SECOND_LINE ++ []))) from by
      simp [List.flatMap_cons]]
  rw [flatMap_splitNl_id (m.ring.map (fun ks => identityLine ks.1))
      (by
        intro x hx
        obtain ⟨ks, _, rfl⟩ := List.mem_map.1 hx
        exact identityLine_ne_newline ks.1),
    splitNl_no_nl SIGNED_MESSAGE_FIRST_LINE (by decide),
    splitNl_no_nl SIGNED_MESSAGE_SECOND_LINE (by decide),
    splitNl_no_nl SIGNED_MESSAGE_INFIX_FIRST_LINE (by decide),
    splitNl_no_nl SIGNED_MESSAGE_INFIX_SECOND_LINE (by decide),
    splitNl_no_nl SIGNED_MESSAGE_INFIX_THIRD_LINE (by decide),
    splitNl_no_nl SIGNED_MESSAGE_INFIX_FOURTH_LINE (by decide),
    splitNl_no_nl SIGNED_MESSAGE_SUFFIX_SECOND_LINE (by decide),
    splitNl_no_nl (z85Encode (serChallengeRing m.challenge m.ring))
      (fun h => z85Encode_ne_newline _ '\n' h rfl),
    show splitNl ([] : List Char) = [[]] from rfl]
  simp only [List.append_assoc, List.cons_append, List.singleton_append,
    List.nil_append, List.append_nil]

/-! ## Signed-message ASCII round trip -/

theorem signedMessage_fromChars_toChars (m : SignedMessage)
    (hring : m.ring ≠ [])
    (hwire : ∀ ks ∈ m.ring, wireSizeOk ks.1)
    (hcount : m.ring.length < 4294967296) :
    SignedMessage.fromChars (SignedMessage.toChars m) = some m := by
  simp only [SignedMessage.fromChars]
  rw [signedMessage_lines m]
  set M := splitNl m.message with hM
  set R := m.ring.map (fun ks => identityLine ks.1) with hR
  set Z := z85Encode (serChallengeRing m.challenge m.ring) with hZ
  set lines := SIGNED_MESSAGE_FIRST_LINE :: SIGNED_MESSAGE_SECOND_LINE ::
      (M ++ (SIGNED_MESSAGE_INFIX_FIRST_LINE :: SIGNED_MESSAGE_INFIX_SECOND_LINE ::
        SIGNED_MESSAGE_INFIX_THIRD_LINE :: SIGNED_MESSAGE_INFIX_FOURTH_LINE ::
        (R ++ [[], Z, [], SIGNED_MESSAGE_SUFFIX_SECOND_LINE]))) with hlines
  have hMne : M ≠ [] := by rw [hM]; exact splitNl_ne_nil m.message
  have hL : 1 ≤ M.length := List.length_pos.2 hMne
  have hn1 : 1 ≤ m.ring.length := List.length_pos.2 hring
  have hRlen : R.length = m.ring.length := by rw [hR, List.length_map]
  have hNlen : lines.length = M.length + m.ring.length + 10 := by
    rw [hlines]
    simp only [List.length_cons, List.length_append, List.length_nil, hRlen]
    omega
  set P2 := SIGNED_MESSAGE_FIRST_LINE :: SIGNED_MESSAGE_SECOND_LINE :: M with hP2
  set P6 := P2 ++ [SIGNED_MESSAGE_INFIX_FIRST_LINE, SIGNED_MESSAGE_INFIX_SECOND_LINE,
    SIGNED_MESSAGE_INFIX_THIRD_LINE, SIGNED_MESSAGE_INFIX_FOURTH_LINE] with hP6
  set P7 := P6 ++ R with hP7
  have hP2len : P2.length = M.length + 2 := by rw [hP2]; simp
  have hP6len : P6.length = M.length + 6 := by
    rw [hP6]
    simp only [List.length_append, List.length_cons, List.length_nil, hP2len]
  have hP7len : P7.length = M.length + m.ring.length + 6 := by
    rw [hP7]
    simp only [List.length_append, hP6len, hRlen]
    omega
  have hsplit2 : lines = P2 ++ (SIGNED_MESSAGE_INFIX_FIRST_LINE ::
      SIGNED_MESSAGE_INFIX_SECOND_LINE :: SIGNED_MESSAGE_INFIX_THIRD_LINE ::
      SIGNED_MESSAGE_INFIX_FOURTH_LINE ::
      (R ++ [[], Z, [], SIGNED_MESSAGE_SUFFIX_SECOND_LINE])) := by
    simp [hlines, hP2]
  have hsplit6 : lines = P6 ++ (R ++ [[], Z, [], SIGNED_MESSAGE_SUFFIX_SECOND_LINE]) := by
    simp [hlines, hP6, hP2]
  have hsplit7 : lines = P7 ++ [[], Z, [], SIGNED_MESSAGE_SUFFIX_SECOND_LINE] := by
    simp [hlines, hP7, hP6, hP2]
  rw [if_neg (show ¬ lines.length < 12 from by rw [hNlen]; omega)]
  have hg0 : lines.getD 0 [] = SIGNED_MESSAGE_FIRST_LINE := by rw [hlines]; rfl
  have hg1 : lines.getD 1 [] = SIGNED_MESSAGE_SECOND_LINE := by rw [hlines]; rfl
  rw [if_neg (not_not_intro ⟨hg0, hg1⟩)]
  have hgl1 : lines.getD (lines.length - 1) [] = SIGNED_MESSAGE_SUFFIX_SECOND_LINE := by
    have hidx : lines.length - 1 = P7.length + 3 := by rw [hNlen, hP7len]; omega
    rw [hidx, hsplit7, List.getD_append_right _ _ _ _ (Nat.le_add_right _ _),
      Nat.add_sub_cancel_left]
    rfl
  have hgl2 : lines.getD (lines.length - 2) [] = SIGNED_MESSAGE_SUFFIX_FIRST_LINE := by
    have hidx : lines.length - 2 = P7.length + 2 := by rw [hNlen, hP7len]; omega
    rw [hidx, hsplit7, List.getD_append_right _ _ _ _ (Nat.le_add_right _ _),
      Nat.add_sub_cancel_left]
    rfl
  have hgl4 : lines.getD (lines.length - 4) [] = [] := by
    have hidx : lines.length - 4 = P7.length := by rw [hNlen, hP7len]; omega
    rw [hidx, hsplit7, List.getD_append_right _ _ _ _ (le_refl _), Nat.sub_self]
    rfl
  rw [if_neg (not_not_intro ⟨hgl1, hgl2, hgl4⟩)]
  have hgl3 : lines.getD (lines.length - 3) [] = Z := by
    have hidx : lines.length - 3 = P7.length + 1 := by rw [hNlen, hP7len]; omega
    rw [hidx, hsplit7, List.getD_append_right _ _ _ _ (Nat.le_add_right _ _),
      Nat.add_sub_cancel_left]
    rfl
  rw [hgl3]
  have hzdec : z85Decode Z = some (serChallengeRing m.challenge m.ring) := by
    rw [hZ]
    exact z85Decode_encode _ (serChallengeRing_lt _ _)
  rw [hzdec, Option.some_bind]
  have hdeser : deserChallengeRing (serChallengeRing m.challenge m.ring)
      = some ((m.challenge, m.ring), []) := by
    have h := deserChallengeRing_ser m.challenge m.ring hwire hcount []
    rwa [List.append_nil] at h
  rw [hdeser, Option.some_bind]
  have hmatch : ringLinesMatch lines m.ring = true := by
    rw [ringLinesMatch, List.all_eq_true]
    intro p hp
    rw [List.mem_iff_getElem] at hp
    obtain ⟨i, hi, hpi⟩ := hp
    have hin : i < m.ring.length := by
      simp only [List.length_zip, List.length_range, List.length_reverse] at hi
      omega
    rw [List.getElem_zip] at hpi
    subst hpi
    simp only [List.getElem_range, List.getElem_reverse]
    have hidx : lines.length - 5 - i = P6.length + (m.ring.length - 1 - i) := by
      rw [hNlen, hP6len]
      omega
    have hrlt : m.ring.length - 1 - i < R.length := by rw [hRlen]; omega
    rw [hidx, hsplit6, List.getD_append_right _ _ _ _ (Nat.le_add_right _ _),
      Nat.add_sub_cancel_left, List.getD_append _ _ _ _ hrlt,
      List.getD_eq_getElem _ _ hrlt]
    simp only [hR, List.getElem_map, decide_eq_true_eq]
  rw [if_neg (not_not_intro hmatch)]
  have hg4i : lines.getD (lines.length - 5 - m.ring.length) []
      = SIGNED_MESSAGE_INFIX_FOURTH_LINE := by
    have hidx : lines.length - 5 - m.ring.length = P2.length + 3 := by
      rw [hNlen, hP2len]
      omega
    rw [hidx, hsplit2, List.getD_append_right _ _ _ _ (Nat.le_add_right _ _),
      Nat.add_sub_cancel_left]
    rfl
  have hg3i : lines.getD (lines.length - 5 - m.ring.length - 1) []
      = SIGNED_MESSAGE_INFIX_THIRD_LINE := by
    have hidx : lines.length - 5 - m.ring.length - 1 = P2.length + 2 := by
      rw [hNlen, hP2len]
      omega
    rw [hidx, hsplit2, List.getD_append_right _ _ _ _ (Nat.le_add_right _ _),
      Nat.add_sub_cancel_left]
    rfl
  have hg2i : lines.getD (lines.length - 5 - m.ring.length - 2) []
      = SIGNED_MESSAGE_INFIX_SECOND_LINE := by
    have hidx : lines.length - 5 - m.ring.length - 2 = P2.length + 1 := by
      rw [hNlen, hP2len]
      omega
    rw [hidx, hsplit2, List.getD_append_right _ _ _ _ (Nat.le_add_right _ _),
      Nat.add_sub_cancel_left]
    rfl
  have hg1i : lines.getD (lines.length - 5 - m.ring.length - 3) []
      = SIGNED_MESSAGE_INFIX_FIRST_LINE := by
    have hidx : lines.length - 5 - m.ring.length - 3 = P2.length := by
      rw [hNlen, hP2len]
      omega
    rw [hidx, hsplit2, List.getD_append_right _ _ _ _ (le_refl _), Nat.sub_self]
    rfl
  rw [if_neg (not_not_intro ⟨hg4i, hg3i, hg2i, hg1i⟩)]
  have htake : lines.take (lines.length - 5 - m.ring.length - 3) = P2 := by
    have hidx : lines.length - 5 - m.ring.length - 3 = P2.length := by
      rw [hNlen, hP2len]
      omega
    rw [hidx, hsplit2, List.take_left]
  rw [htake, show P2.drop 2 = M from by rw [hP2]; rfl, hM, joinNl_splitNl]

/-! ## Fingerprint shape -/

theorem insertIdx_eq_take_drop {α : Type} (a : α) :
    ∀ (n : Nat) (l : List α), n ≤ l.length →
      List.insertIdx n a l = l.take n ++ a :: l.drop n
  | 0, l, _ => by rw [List.insertIdx_zero]; rfl
  | n + 1, [], h => by simp at h
  | n + 1, b :: t, h => by
    rw [List.insertIdx_succ_cons, insertIdx_eq_take_drop a n t (by simpa using h)]
    rfl

/-! ## Atomicity of the visible view under mutations -/

theorem write_contents_cases (st : DatabaseState) (w : StorageWorld)
    (db : DatabaseContentsV0) :
    ((Database.write_contents st w db).1 = Except.error () ∧
      (Database.write_contents st w db).2.visible_contents = st.visible_contents) ∨
    ((Database.write_contents st w db).1 = Except.ok () ∧
      (Database.write_contents st w db).2.visible_contents
        = (Database.write_contents st w db).2.disk.get_visible) := by
  simp only [Database.write_contents]
  split_ifs <;> simp

theorem mutation_visible_cases (st : DatabaseState) (w : StorageWorld) (mu : Mutation) :
    ((applyMutation st w mu).1 = Except.error () ∧
      (applyMutation st w mu).2.visible_contents = st.visible_contents) ∨
    ((applyMutation st w mu).1 = Except.ok () ∧
      (applyMutation st w mu).2.visible_contents
        = (applyMutation st w mu).2.disk.get_visible) := by
  cases mu with
  | newPrivateKey name email key rnd0 a0 =>
    simp only [applyMutation, Database.new_private_key]
    cases hid : Identity.new name email with
    | none => exact Or.inl ⟨rfl, rfl⟩
    | some id =>
      simp only [Database.import_private_key]
      cases hg : Database.get_contents st w with
      | error e => exact Or.inl ⟨rfl, rfl⟩
      | ok c => exact write_contents_cases st w _
  | importPrivateKey key =>
    simp only [applyMutation, Database.import_private_key]
    cases hg : Database.get_contents st w with
    | error e => exact Or.inl ⟨rfl, rfl⟩
    | ok c => exact write_contents_cases st w _
  | deletePrivateKey k =>
    simp only [applyMutation, Database.delete_private_key]
    cases hg : Database.get_contents st w with
    | error e => exact Or.inl ⟨rfl, rfl⟩
    | ok c => exact write_contents_cases st w _
  | addPublicKeys ks =>
    simp only [applyMutation, Database.add_public_keys]
    cases hg : Database.get_contents st w with
    | error e => exact Or.inl ⟨rfl, rfl⟩
    | ok c => exact write_contents_cases st w _
  | deletePublicKey k =>
    simp only [applyMutation, Database.delete_public_key]
    cases hg : Database.get_contents st w with
    | error e => exact Or.inl ⟨rfl, rfl⟩
    | ok c => exact write_contents_cases st w _
  | setVerified k =>
    simp only [applyMutation, Database.set_verified]
    cases hg : Database.get_contents st w with
    | error e => exact Or.inl ⟨rfl, rfl⟩
    | ok c => exact write_contents_cases st w _
  | setUnverified k =>
    simp only [applyMutation, Database.set_unverified]
    cases hg : Database.get_contents st w with
    | error e => exact Or.inl ⟨rfl, rfl⟩
    | ok c => exact write_contents_cases st w _

/-! ## Association-list map lemmas -/

theorem mapLookup_mapInsert_self {K V : Type} [DecidableEq K] :
    ∀ (m : List (K × V)) (k : K) (v : V), mapLookup (mapInsert m k v) k = some v
  | [], k, v => by simp [mapInsert, mapLookup]
  | (k', v') :: t, k, v => by
    rw [mapInsert]
    by_cases h : k = k'
    · rw [if_pos h, mapLookup, if_pos rfl]
    · rw [if_neg h, mapLookup, if_neg h, mapLookup_mapInsert_self t k v]

theorem mapLookup_mapInsert_ne {K V : Type} [DecidableEq K] :
    ∀ (m : List (K × V)) (k k' : K) (v : V), ¬ k' = k →
      mapLookup (mapInsert m k v) k' = mapLookup m k'
  | [], k, k', v, h => by simp [mapInsert, mapLookup, h]
  | (k0, v0) :: t, k, k', v, h => by
    rw [mapInsert]
    by_cases h0 : k = k0
    · rw [if_pos h0, mapLookup, if_neg h, mapLookup, if_neg (by rw [← h0]; exact h)]
    · rw [if_neg h0, mapLookup, mapLookup]
      by_cases h1 : k' = k0
      · rw [if_pos h1, if_pos h1]
      · rw [if_neg h1, if_neg h1, mapLookup_mapInsert_ne t k k' v h]

theorem mapLookup_mapExtend_not_mem {K V : Type} [DecidableEq K] :
    ∀ (ks : List K) (m : List (K × V)) (v : V) (k : K), k ∉ ks →
      mapLookup (mapExtend m (ks.map (fun x => (x, v)))) k = mapLookup m k
  | [], _, _, _, _ => rfl
  | k0 :: t, m, v, k, hk => by
    rw [List.map_cons]
    show mapLookup (mapExtend (mapInsert m k0 v) (t.map (fun x => (x, v)))) k = _
    rw [mapLookup_mapExtend_not_mem t _ v k (fun h => hk (List.mem_cons_of_mem _ h)),
      mapLookup_mapInsert_ne m k0 k v
        (fun h => hk (by rw [h]; exact List.mem_cons_self k0 t))]

theorem mapLookup_mapExtend_mem {K V : Type} [DecidableEq K] :
    ∀ (ks : List K) (m : List (K × V)) (v : V) (k : K), k ∈ ks →
      mapLookup (mapExtend m (ks.map (fun x => (x, v)))) k = some v
  | [], _, _, k, hk => absurd hk (List.not_mem_nil k)
  | k0 :: t, m, v, k, hk => by
    rw [List.map_cons]
    show mapLookup (mapExtend (mapInsert m k0 v) (t.map (fun x => (x, v)))) k = some v
    by_cases ht : k ∈ t
    · exact mapLookup_mapExtend_mem t _ v k ht
    · have hk0 : k = k0 := by
        rcases List.mem_cons.1 hk with h | h
        · exact h
        · exact absurd h ht
      rw [mapLookup_mapExtend_not_mem t _ v k ht, hk0, mapLookup_mapInsert_self]

/-! ## The state after a successful `add_public_keys` -/

theorem add_public_keys_ok_state (st : DatabaseState) (w : StorageWorld)
    (ks : List PublicKey)
    (h : (Database.add_public_keys st w ks).1 = Except.ok ()) :
    (Database.add_public_keys st w ks).2.disk.public_keys
        = mapExtend st.disk.public_keys
            (ks.map (fun k => (k, VerificationInfo.unverified))) ∧
      (Database.add_public_keys st w ks).2.disk.private_keys
        = st.disk.private_keys := by
  simp only [Database.add_public_keys] at h ⊢
  cases hg : Database.get_contents st w with
  | error e =>
    rw [hg] at h
    simp at h
  | ok c =>
    rw [hg] at h
    have hc : c = st.disk := by
      rw [Database.get_contents] at hg
      split_ifs at hg
      exact (Except.ok.inj hg).symm
    subst hc
    simp only [Database.write_contents] at h ⊢
    split_ifs at h ⊢
    all_goals first
    | exact ⟨rfl, rfl⟩
    | exact absurd h (by simp)

/-! ## The lock file replaces the database file's extension -/

/-- C7 (amended): `lockfile_path` is `Path::with_extension("lock")`, which
does not append `.lock` to the path but replaces the file name's extension:
for a directory `dir`, a file name with a non-empty stem and an extension
holding no dot or slash, the lock file of `dir/stem.ext` is `dir/stem.lock`
(the claim's `zebra_db.age` thus locks at `zebra_db.lock`, not
`zebra_db.age.lock`). -/
theorem lockfile_path_replaces_extension (dir stem ext : List Char)
    (hstem : stem ≠ []) (hs : '/' ∉ stem) (he : '.' ∉ ext) (hed : '/' ∉ ext) :
    lockfile_path (dir ++ '/' :: (stem ++ '.' :: ext))
      = dir ++ '/' :: (stem ++ '.' :: "lock".toList) := by
  set fname := stem ++ '.' :: ext with hfname
  have hrev : (dir ++ '/' :: fname).reverse = fname.reverse ++ '/' :: dir.reverse := by
    simp
  have hfnoslash : ∀ c ∈ fname, ¬ c = '/' := by
    intro c hc
    rw [hfname] at hc
    rcases List.mem_append.1 hc with h | h
    · exact fun hh => hs (hh ▸ h)
    · rcases List.mem_cons.1 h with h | h
      · rw [h]; decide
      · exact fun hh => hed (hh ▸ h)
  have htw : (fname.reverse ++ '/' :: dir.reverse).takeWhile
      (fun c => decide (¬ c = '/')) = fname.reverse := by
    rw [List.takeWhile_append_of_pos]
    · rw [List.takeWhile_cons_of_neg (by simp), List.append_nil]
    · intro c hc
      simp only [decide_eq_true_eq]
      exact hfnoslash c (List.mem_reverse.1 hc)
  have hlen1 : (dir ++ '/' :: fname).length - fname.reverse.length = dir.length + 1 := by
    simp only [List.length_append, List.length_cons, List.length_reverse]
    omega
  have hsplitf : splitFileName (dir ++ '/' :: fname) = (dir ++ ['/'], fname) := by
    simp only [splitFileName, hrev, htw, List.reverse_reverse, hlen1]
    rw [List.take_append]
    rfl
  have hfrev : fname.reverse = ext.reverse ++ '.' :: stem.reverse := by
    rw [hfname]
    simp
  have hrevExt : fname.reverse.takeWhile (fun c => decide (¬ c = '.')) = ext.reverse := by
    rw [hfrev, List.takeWhile_append_of_pos]
    · rw [List.takeWhile_cons_of_neg (by simp), List.append_nil]
    · intro c hc
      simp only [decide_eq_true_eq]
      exact fun hh => he (hh ▸ List.mem_reverse.1 hc)
  have hflen : fname.length = stem.length + 1 + ext.length := by
    rw [hfname]
    simp only [List.length_append, List.length_cons]
    omega
  have hsne : ¬ stem.length = 0 := fun hz => hstem (List.length_eq_zero.1 hz)
  have hstem_eq : fileStem fname = stem := by
    simp only [fileStem, hrevExt, List.length_reverse]
    rw [if_pos (by constructor <;> omega)]
    have hidx : fname.length - ext.length - 1 = stem.length := by omega
    rw [hidx, hfname, List.take_left]
  rw [lockfile_path, withExtension, hsplitf]
  simp only [hstem_eq]
  simp [List.append_assoc]

/-! ## Claim theorems -/

/-- C1: contrary to the spec's "Require `n ≥ 1`", `Signature::verify` accepts
every signature whose `ring_responses` is empty, for every message: the fold
that recomputes the challenge chain runs over zero entries and returns the
stored challenge unchanged, so the final comparison is trivially true. -/
theorem verify_accepts_empty_ring (c : Scalar) (message : List Nat) :
    Signature.verify { challenge := c, ring_responses := [] } message = true := by
  simp [Signature.verify]

/-- C2: signing a message with a private key whose attestation comes from
`PrivateKey::new`, over any list of valid other keys containing no duplicate
of the signer's public key, produces a `SignedMessage` that verifies. -/
theorem sign_then_verify_succeeds (message : List Char) (holder : Identity)
    (key : Scalar) (rnd0 : Nat → Scalar) (a0 : Scalar) (os : List PublicKey)
    (rnd : Nat → Scalar) (a : Scalar)
    (hval : ∀ k ∈ os, k.validate_attestation = true)
    (hnodup : (PrivateKey.new holder key rnd0 a0).public ∉ os) :
    (SignedMessage.sign message (PrivateKey.new holder key rnd0 a0) os rnd a).verify
      = true :=
  signedMessage_sign_verifies message holder key rnd0 a0 os rnd a hval

theorem sign_then_verify_witness :
    (∀ k ∈ ([] : List PublicKey), k.validate_attestation = true) ∧
      (PrivateKey.new sampleIdentity 1 (fun _ => 0) 0).public ∉ ([] : List PublicKey) ∧
      (SignedMessage.sign ['h', 'i'] (PrivateKey.new sampleIdentity 1 (fun _ => 0) 0)
          [] (fun _ => 0) 0).verify = true :=
  ⟨fun k hk => absurd hk (List.not_mem_nil k), List.not_mem_nil _,
    sign_then_verify_succeeds ['h', 'i'] sampleIdentity 1 (fun _ => 0) 0 []
      (fun _ => 0) 0 (fun k hk => absurd hk (List.not_mem_nil k))
      (List.not_mem_nil _)⟩

/-- C5: the ring built by `SignedMessage::sign` is sorted by the non-strict
byte-lexicographic order on compressed keypoints, and the signer's own public
key occurs exactly once among the ring's public keys, no matter how many
structurally equal copies the caller put into `other_keys` (they are filtered
out before `make_ring` appends the signer's key). -/
theorem sign_ring_sorted_and_signer_once (message : List Char)
    (my_key : PrivateKey) (other_keys : List PublicKey) (rnd : Nat → Scalar)
    (a : Scalar) :
    List.Sorted (ringLe (fun k => k.keypoint))
        ((SignedMessage.sign message my_key other_keys rnd a).ring.map Prod.fst) ∧
      ((SignedMessage.sign message my_key other_keys rnd a).ring.map Prod.fst).count
          my_key.public = 1 := by
  rw [signedMessage_ring_map_fst]
  refine ⟨make_ring_sorted _ _ _, ?_⟩
  rw [make_ring_count_self, count_filter_self]

/-- C9: `SignedMessage::from_str` first trims its input, and trimming is
idempotent, so parsing is invariant under leading and trailing whitespace:
parsing the trimmed string gives the same result as parsing the original. -/
theorem signedMessage_fromChars_trim_invariant (s : List Char) :
    SignedMessage.fromChars (trimChars s) = SignedMessage.fromChars s := by
  simp only [SignedMessage.fromChars, trimChars_idem]

/-- C6 (amended): the fingerprint is the Z85 encoding of the SHA3-256 digest
of the canonical serialization of the whole PublicKey in the code's declared
field order — holder identity, then version, then keypoint, then attestation
(`serPublicKey`) — split into 4 groups of 10 characters joined by single
spaces, 43 characters total.  The spec's stated order (version before
identity) computes a different digest; see the counterexample. -/
theorem fingerprint_grouped_shape (k : PublicKey) :
    k.fingerprint.length = 43 ∧
    k.fingerprint =
      (z85Encode (sha3_256 (serPublicKey k))).take 10 ++
        ' ' :: (((z85Encode (sha3_256 (serPublicKey k))).drop 10).take 10 ++
        ' ' :: (((z85Encode (sha3_256 (serPublicKey k))).drop 20).take 10 ++
        ' ' :: (z85Encode (sha3_256 (serPublicKey k))).drop 30)) := by
  simp only [PublicKey.fingerprint]
  set z := z85Encode (sha3_256 (serPublicKey k)) with hz
  have hz40 : z.length = 40 := by
    rw [hz, z85Encode_length_mult4 _ (by rw [sha3_256_length]), sha3_256_length]
  have h30 : List.insertIdx 30 ' ' z = z.take 30 ++ ' ' :: z.drop 30 :=
    insertIdx_eq_take_drop ' ' 30 z (by omega)
  have ht20 : (z.take 30 ++ ' ' :: z.drop 30).take 20 = z.take 20 := by
    rw [List.take_append_of_le_length (by rw [List.length_take]; omega), List.take_take]
    norm_num
  have hd20 : (z.take 30 ++ ' ' :: z.drop 30).drop 20
      = (z.drop 20).take 10 ++ ' ' :: z.drop 30 := by
    rw [List.drop_append_of_le_length (by rw [List.length_take]; omega), List.drop_take]
  have h20 : List.insertIdx 20 ' ' (z.take 30 ++ ' ' :: z.drop 30)
      = z.take 20 ++ ' ' :: ((z.drop 20).take 10 ++ ' ' :: z.drop 30) := by
    rw [insertIdx_eq_take_drop ' ' 20 _ (by
        simp only [List.length_append, List.length_cons, List.length_take,
          List.length_drop]
        omega),
      ht20, hd20]
  have ht10 : (z.take 20 ++ ' ' :: ((z.drop 20).take 10 ++ ' ' :: z.drop 30)).take 10
      = z.take 10 := by
    rw [List.take_append_of_le_length (by rw [List.length_take]; omega), List.take_take]
    norm_num
  have hd10 : (z.take 20 ++ ' ' :: ((z.drop 20).take 10 ++ ' ' :: z.drop 30)).drop 10
      = (z.drop 10).take 10 ++ ' ' :: ((z.drop 20).take 10 ++ ' ' :: z.drop 30) := by
    rw [List.drop_append_of_le_length (by rw [List.length_take]; omega), List.drop_take]
  have hshape : List.insertIdx 10 ' ' (List.insertIdx 20 ' ' (List.insertIdx 30 ' ' z))
      = z.take 10 ++ ' ' :: ((z.drop 10).take 10 ++
        ' ' :: ((z.drop 20).take 10 ++ ' ' :: z.drop 30)) := by
    rw [h30, h20,
      insertIdx_eq_take_drop ' ' 10 _ (by
        simp only [List.length_append, List.length_cons, List.length_take,
          List.length_drop]
        omega),
      ht10, hd10]
  constructor
  · rw [hshape]
    simp only [List.length_append, List.length_cons, List.length_take,
      List.length_drop]
    omega
  · exact hshape

/-- C6 counterexample: serializing in the spec's stated field order (version
before identity) yields a different fingerprint than the code computes for a
concrete key, so the spec's order sentence does not describe the code. -/
theorem fingerprint_spec_order_differs :
    ¬ fingerprintSpecOrder samplePk = PublicKey.fingerprint samplePk := by
  decide

theorem lockfile_path_witness :
    "zebra_db".toList ≠ [] ∧ '/' ∉ "zebra_db".toList ∧ '.' ∉ "age".toList ∧
      '/' ∉ "age".toList ∧
      lockfile_path ("tmp".toList ++ '/' :: ("zebra_db".toList ++ '.' :: "age".toList))
        = "tmp".toList ++ '/' :: ("zebra_db".toList ++ '.' :: "lock".toList) :=
  ⟨by decide, by decide, by decide, by decide,
    lockfile_path_replaces_extension "tmp".toList "zebra_db".toList "age".toList
      (by decide) (by decide) (by decide) (by decide)⟩

/-- C7 counterexample: for the database path `zebra_db.age` of the claim's
own example, the lock file is `zebra_db.lock`, not the appended
`zebra_db.age.lock`. -/
theorem lockfile_path_appended_counterexample :
    lockfile_path "zebra_db.age".toList = "zebra_db.lock".toList ∧
      ¬ lockfile_path "zebra_db.age".toList = "zebra_db.age.lock".toList := by
  decide

/-- C8: for every database state, world outcome and mutation, if the mutation
returns an error the cached visible view is unchanged, and if it returns
success the visible view equals the view derived from the newly written
contents. -/
theorem mutation_atomic_visible (st : DatabaseState) (w : StorageWorld)
    (mu : Mutation) :
    (∀ e : Unit, (applyMutation st w mu).1 = Except.error e →
      (applyMutation st w mu).2.visible_contents = st.visible_contents) ∧
    ((applyMutation st w mu).1 = Except.ok () →
      (applyMutation st w mu).2.visible_contents
        = (applyMutation st w mu).2.disk.get_visible) := by
  rcases mutation_visible_cases st w mu with ⟨h1, h2⟩ | ⟨h1, h2⟩
  · refine ⟨fun e he => h2, fun hok => ?_⟩
    rw [h1] at hok
    exact Except.noConfusion hok
  · refine ⟨fun e he => ?_, fun hok => h2⟩
    rw [h1] at he
    exact Except.noConfusion he

/-- C10: after a successful `add_public_keys ks`, every key of `ks` is mapped
to the unverified `VerificationInfo` (overwriting any previous entry), keys
outside `ks` keep their previous entry, and the private-key map is
unchanged. -/
theorem add_public_keys_resets_verification (st : DatabaseState)
    (w : StorageWorld) (ks : List PublicKey)
    (h : (Database.add_public_keys st w ks).1 = Except.ok ()) :
    (∀ k ∈ ks, mapLookup (Database.add_public_keys st w ks).2.disk.public_keys k
        = some VerificationInfo.unverified) ∧
    (∀ k, k ∉ ks → mapLookup (Database.add_public_keys st w ks).2.disk.public_keys k
        = mapLookup st.disk.public_keys k) ∧
    (Database.add_public_keys st w ks).2.disk.private_keys
      = st.disk.private_keys := by
  obtain ⟨hpub, hpriv⟩ := add_public_keys_ok_state st w ks h
  refine ⟨?_, ?_, hpriv⟩
  · intro k hk
    rw [hpub]
    exact mapLookup_mapExtend_mem ks _ _ k hk
  · intro k hk
    rw [hpub]
    exact mapLookup_mapExtend_not_mem ks _ _ k hk

theorem add_public_keys_resets_witness :
    (Database.add_public_keys sampleDbState sampleWorld [trivialKey]).1
        = Except.ok () ∧
      ((∀ k ∈ [trivialKey],
          mapLookup (Database.add_public_keys sampleDbState sampleWorld
            [trivialKey]).2.disk.public_keys k = some VerificationInfo.unverified) ∧
        (∀ k, k ∉ [trivialKey] →
          mapLookup (Database.add_public_keys sampleDbState sampleWorld
            [trivialKey]).2.disk.public_keys k
            = mapLookup sampleDbState.disk.public_keys k) ∧
        (Database.add_public_keys sampleDbState sampleWorld
            [trivialKey]).2.disk.private_keys = sampleDbState.disk.private_keys) :=
  ⟨rfl, add_public_keys_resets_verification sampleDbState sampleWorld [trivialKey] rfl⟩

/-- C4: parsing the ASCII form of a message produced by
`SignedMessage::sign` returns that message, whenever each key's
variable-length parts fit the Borsh `u32` length prefixes (always true of
keys the program can serialize). -/
theorem signedMessage_parse_format_of_sign (message : List Char)
    (my_key : PrivateKey) (other_keys : List PublicKey) (rnd : Nat → Scalar)
    (a : Scalar) (hwm : wireSizeOk my_key.public)
    (hwo : ∀ k ∈ other_keys, wireSizeOk k)
    (hcount : other_keys.length + 1 < 4294967296) :
    SignedMessage.fromChars (SignedMessage.toChars
        (SignedMessage.sign message my_key other_keys rnd a))
      = some (SignedMessage.sign message my_key other_keys rnd a) := by
  have hfst := signedMessage_ring_map_fst message my_key other_keys rnd a
  have hlenr : (SignedMessage.sign message my_key other_keys rnd a).ring.length
      = (other_keys.filter (fun k => decide (¬ k = my_key.public))).length + 1 := by
    have h := congrArg List.length hfst
    rw [List.length_map, make_ring_length] at h
    exact h
  apply signedMessage_fromChars_toChars
  · intro hnil
    rw [hnil] at hlenr
    simp at hlenr
  · intro ks hks
    have hksf : ks.1 ∈ (SignedMessage.sign message my_key other_keys rnd a).ring.map
        Prod.fst := List.mem_map_of_mem _ hks
    rw [hfst, (make_ring_perm _ _ _).mem_iff, List.mem_append] at hksf
    rcases hksf with h | h
    · exact hwo _ (List.mem_of_mem_filter h)
    · have heq : ks.1 = my_key.public := by simpa using h
      rw [heq]
      exact hwm
  · rw [hlenr]
    have hfl := List.length_filter_le (fun k => decide (¬ k = my_key.public)) other_keys
    omega

theorem signedMessage_parse_format_witness :
    wireSizeOk samplePrivateKey.public ∧
      (∀ k ∈ ([] : List PublicKey), wireSizeOk k) ∧
      ([] : List PublicKey).length + 1 < 4294967296 ∧
      SignedMessage.fromChars (SignedMessage.toChars
          (SignedMessage.sign ['h', 'i'] samplePrivateKey [] (fun _ => 0) 0))
        = some (SignedMessage.sign ['h', 'i'] samplePrivateKey [] (fun _ => 0) 0) :=
  ⟨by decide, fun k hk => absurd hk (List.not_mem_nil k), by norm_num,
    signedMessage_parse_format_of_sign ['h', 'i'] samplePrivateKey [] (fun _ => 0) 0
      (by decide) (fun k hk => absurd hk (List.not_mem_nil k)) (by norm_num)⟩

theorem publicKey_roundtrip_witness :
    samplePk.validate_attestation = true ∧
      PublicKey.fromChars (PublicKey.toChars samplePk) = some samplePk :=
  ⟨privateKey_new_validates sampleIdentity 1 (fun _ => 0) 0,
    publicKey_fromChars_toChars samplePk
      (privateKey_new_validates sampleIdentity 1 (fun _ => 0) 0)⟩

end ZebraSpec
